import Mathlib

/-!
Shallow embedding of the voxelize repository (src/lib.rs, src/main.rs).

Modelling conventions:
* Rust `f32` values are modelled as exact rationals (`ℚ`).  Every concrete
  input used in a witness or counterexample below is a dyadic rational small
  enough that each `f32` operation it reaches is exact, so the model and the
  compiled program agree at those inputs.
* Rust `i32`/`u32`/`usize` values are modelled as `ℤ`/`ℕ`; the program never
  overflows them on the inputs considered.
* A Rust `HashMap` built by an insertion loop is modelled as a function to
  `Option`, built by folding the same insertions over the same iteration
  ranges; where the source iterates over a `HashMap` (unspecified order) the
  entries are passed as an explicit list, so theorems quantify over every
  possible iteration order.
* A Rust `panic!` / failed `assert!` / `bail!` is modelled by an
  `Option`/`Except` result being `none`/`error`.
-/

namespace Voxelize

/-- Model of image::Rgba of u8: a pixel with four channel values. -/
structure Pixel where
  r : ℕ
  g : ℕ
  b : ℕ
  a : ℕ
deriving DecidableEq

/-- main.rs DEFAULT_KEY: transparent color in images we generate. -/
def DEFAULT_KEY : Pixel := ⟨0, 0, 0, 0⟩

/-- Model of glam::IVec2. -/
structure IVec2 where
  x : ℤ
  y : ℤ
deriving DecidableEq

/-- Model of glam::IVec3. -/
structure IVec3 where
  x : ℤ
  y : ℤ
  z : ℤ
deriving DecidableEq

instance : Add IVec2 := ⟨fun a b => ⟨a.x + b.x, a.y + b.y⟩⟩

instance : Sub IVec2 := ⟨fun a b => ⟨a.x - b.x, a.y - b.y⟩⟩

instance : Add IVec3 := ⟨fun a b => ⟨a.x + b.x, a.y + b.y, a.z + b.z⟩⟩

instance : Sub IVec3 := ⟨fun a b => ⟨a.x - b.x, a.y - b.y, a.z - b.z⟩⟩

/-- Model of glam::Vec2 (f32 components as exact rationals). -/
structure Vec2 where
  x : ℚ
  y : ℚ
deriving DecidableEq

/-- Model of glam::Vec3 (f32 components as exact rationals). -/
structure Vec3 where
  x : ℚ
  y : ℚ
  z : ℚ
deriving DecidableEq

instance : Add Vec3 := ⟨fun a b => ⟨a.x + b.x, a.y + b.y, a.z + b.z⟩⟩

instance : Sub Vec3 := ⟨fun a b => ⟨a.x - b.x, a.y - b.y, a.z - b.z⟩⟩

/-- Rust f32::round: round to the nearest integer, ties away from zero. -/
def rustRound (q : ℚ) : ℤ :=
  if 0 ≤ q then ⌊q + 1 / 2⌋ else -⌊-q + 1 / 2⌋

/-- Fuel-based floor base-2 logarithm (exact whenever the fuel is at least
the argument; structural recursion so kernel reduction works). -/
def natLog2Aux : ℕ → ℕ → ℕ
  | 0, _ => 0
  | fuel + 1, n => if n ≤ 1 then 0 else natLog2Aux fuel (n / 2) + 1

/-- Floor base-2 logarithm of a natural number. -/
def natLog2 (n : ℕ) : ℕ := natLog2Aux n n

/-- Round a rational to the nearest integer, ties to even: the IEEE-754
default rounding attitude used by Rust's f32 casts and arithmetic. -/
def roundTiesEven (x : ℚ) : ℤ :=
  if x - ⌊x⌋ < 1 / 2 then ⌊x⌋
  else if 1 / 2 < x - ⌊x⌋ then ⌊x⌋ + 1
  else if ⌊x⌋ % 2 = 0 then ⌊x⌋ else ⌊x⌋ + 1

/-- Floor base-2 logarithm of a positive rational: the unique e with
2^e ≤ q < 2^(e+1) (junk on q ≤ 0).  The exponent of the numerator minus the
exponent of the denominator overshoots by at most one, so one comparison
fixes it up. -/
def floorLog2 (q : ℚ) : ℤ :=
  if (2 : ℚ) ^ ((natLog2 q.num.natAbs : ℤ) - (natLog2 q.den : ℤ)) ≤ q then
    (natLog2 q.num.natAbs : ℤ) - (natLog2 q.den : ℤ)
  else
    (natLog2 q.num.natAbs : ℤ) - (natLog2 q.den : ℤ) - 1

/-- Round an exact rational value to the nearest f32: scale the magnitude
to a 24-bit significand in [2^23, 2^24), round that to the nearest integer
with ties to even, and scale back.  This is IEEE-754 binary32
round-to-nearest-even for every value in the normal finite range, which is
the only range the code reaches where this model is used; exponent overflow
to infinity and the subnormal range below 2^-126 are outside the model. -/
def roundF32 (q : ℚ) : ℚ :=
  if q = 0 then 0
  else if q < 0 then
    -(((roundTiesEven (-q * 2 ^ (23 - floorLog2 (-q))) : ℤ) : ℚ) *
      2 ^ (floorLog2 (-q) - 23))
  else
    ((roundTiesEven (q * 2 ^ (23 - floorLog2 q)) : ℤ) : ℚ) *
      2 ^ (floorLog2 q - 23)

/-- lib.rs Rect: 2D integer rectangle, min inclusive, max exclusive. -/
structure Rect where
  min : IVec2
  max : IVec2

/-- lib.rs Rect::normalize: map a point within the rectangle into [0, 1).
Each `pos.x as f32` / `size.x as f32` cast of an i32 rounds to the nearest
f32 (so integers above 2^24 are not preserved), and the f32 division rounds
the exact quotient of the two cast operands; both are modeled by roundF32. -/
def Rect.normalize (r : Rect) (pos : IVec2) : Vec2 :=
  let size := r.max - r.min
  let pos := pos - r.min
  ⟨roundF32 (roundF32 (pos.x : ℚ) / roundF32 (size.x : ℚ)),
   roundF32 (roundF32 (pos.y : ℚ) / roundF32 (size.y : ℚ))⟩

/-- lib.rs Rect::denormalize: map a point in [0, 1) back into the rectangle.
The `size.x as f32` cast and the f32 multiplication uv.x * size round to the
nearest f32 (roundF32); f32 floor is exact and as_ivec2 truncates the
already-integral floored value, so together they are the mathematical floor,
and the final i32 addition of min is exact. -/
def Rect.denormalize (r : Rect) (uv : Vec2) : IVec2 :=
  let size := r.max - r.min
  let pos : Vec2 := ⟨roundF32 (uv.x * roundF32 (size.x : ℚ)),
                     roundF32 (uv.y * roundF32 (size.y : ℚ))⟩
  r.min + ⟨⌊pos.x⌋, ⌊pos.y⌋⟩

/-- Model of image::ImageBuffer: width, height and a total pixel lookup
function standing in for get_pixel (only in-bounds cells are ever read). -/
structure Image where
  width : ℕ
  height : ℕ
  pix : ℕ → ℕ → Pixel

/-- The error cases of the FocusImage TryFrom constructor in main.rs. -/
inductive FocusError where
  | invalidSize
  | noUniqueX
  | noUniqueY
deriving DecidableEq

/-- main.rs FocusImage: an image with the x=0 and y=0 lines cut off, plus the
center point recovered from the marker pixels on those lines. -/
structure FocusImage where
  image : Image
  center : IVec2

/-- main.rs impl TryFrom of Image for FocusImage.  The itertools at_most_one
pattern `let Ok(Some(x)) = ... else bail` succeeds exactly when the filtered
sequence is a singleton. -/
def FocusImage.tryFrom (image : Image) : Except FocusError FocusImage :=
  if image.width < 2 ∨ image.height < 2 then
    .error .invalidSize
  else
    match (List.range image.width).filter
        (fun x => decide (image.pix x 0 ≠ image.pix 0 0)) with
    | [x] =>
      match (List.range image.height).filter
          (fun y => decide (image.pix 0 y ≠ image.pix 0 0)) with
      | [y] =>
        .ok { image := { width := image.width - 1
                         height := image.height - 1
                         pix := fun px py =>
                           if image.pix (px + 1) (py + 1) = image.pix 0 0 then
                             DEFAULT_KEY
                           else
                             image.pix (px + 1) (py + 1) }
              center := ⟨(x : ℤ), (y : ℤ)⟩ }
      | _ => .error .noUniqueY
    | _ => .error .noUniqueX

/-- main.rs FocusImage::sample: round the x and y components, offset by the
center (the rounded y negated), and look the cell up unless it is out of
bounds (both coordinates must be strictly positive) or holds the key. -/
def FocusImage.sample (fi : FocusImage) (uv : Vec3) : Option Pixel :=
  let x : ℤ := rustRound uv.x + fi.center.x
  let y : ℤ := -rustRound uv.y + fi.center.y
  if 0 < x ∧ 0 < y ∧ x < (fi.image.width : ℤ) ∧ y < (fi.image.height : ℤ) then
    if fi.image.pix x.toNat y.toNat = DEFAULT_KEY then none
    else some (fi.image.pix x.toNat y.toNat)
  else
    none

/-- An all-transparent placeholder image (used only as a getD default). -/
def emptyImage : Image := ⟨0, 0, fun _ _ => DEFAULT_KEY⟩

/-- Concrete 4x4 source image for the C4 counterexample: markers at (1,0) and
(0,1) give center (1,1); the only interior non-key pixel is at source (2,3),
which lands at cell (1,2) of the stripped 3x3 image. -/
def imgC4 : Image :=
  { width := 4
    height := 4
    pix := fun x y =>
      if x = 1 ∧ y = 0 then ⟨9, 9, 9, 9⟩
      else if x = 0 ∧ y = 1 then ⟨9, 9, 9, 9⟩
      else if x = 2 ∧ y = 3 then ⟨5, 5, 5, 5⟩
      else ⟨0, 0, 0, 0⟩ }

/-- The FocusImage built from imgC4 (the construction succeeds; the getD
default is never used). -/
def fiC4 : FocusImage :=
  ((FocusImage.tryFrom imgC4).toOption).getD ⟨emptyImage, ⟨0, 0⟩⟩

/-- Concrete 2x2 image for the C5 witness: one non-key pixel on row 0 at
column 1 and one on column 0 at row 1. -/
def imgC5 : Image :=
  ⟨2, 2, fun x y =>
    if (x = 1 ∧ y = 0) ∨ (x = 0 ∧ y = 1) then ⟨1, 1, 1, 1⟩ else ⟨0, 0, 0, 0⟩⟩

/-- A 1x5 image (width less than 2). -/
def img1x5 : Image := ⟨1, 5, fun _ _ => ⟨0, 0, 0, 0⟩⟩

/-- An all-key 3x3 image (no marker anywhere). -/
def imgAllKey : Image := ⟨3, 3, fun _ _ => ⟨2, 2, 2, 2⟩⟩

/-- A 4x4 image with two non-key pixels on row 0 (ambiguous marker). -/
def imgTwoRow : Image :=
  ⟨4, 4, fun x y =>
    if y = 0 ∧ (x = 1 ∨ x = 2) then ⟨1, 1, 1, 1⟩ else ⟨0, 0, 0, 0⟩⟩

/-- Concrete rectangle for the C3 witness. -/
def rectC3 : Rect := ⟨⟨0, 0⟩, ⟨2, 3⟩⟩

/-- Concrete in-rectangle point for the C3 witness. -/
def pC3 : IVec2 := ⟨1, 2⟩

/-- Rectangle for the C3 counterexample: x extent 2^24 + 1 = 16777217, one
more than the largest stretch of integers f32 represents exactly. -/
def rectC3big : Rect := ⟨⟨0, 0⟩, ⟨16777217, 1⟩⟩

/-- In-rectangle point for the C3 counterexample: x component 2^24. -/
def pC3big : IVec2 := ⟨16777216, 0⟩

/-- The epsilon of the assert in lib.rs trace (the literal 0.00001; the
claims never sit at the tiny gap between this and its nearest f32). -/
def EPS : ℚ := 1 / 100000

/-- glam length_squared: the dot product of a vector with itself. -/
def Vec3.lengthSq (v : Vec3) : ℚ := v.x * v.x + v.y * v.y + v.z * v.z

/-- The per-iteration step of lib.rs trace: dir scaled by the reciprocal of
its largest absolute component, so the longest axis has unit length. -/
def traceStep (dir : Vec3) : Vec3 :=
  let scale := 1 / max |dir.x| (max |dir.y| |dir.z|)
  ⟨scale * dir.x, scale * dir.y, scale * dir.z⟩

/-- The tracer position before the (n+1)-st yield: origin plus n steps. -/
def tracePos (origin dir : Vec3) : ℕ → Vec3
  | 0 => origin
  | n + 1 => tracePos origin dir n + traceStep dir

/-- glam Vec3::round, componentwise ties-away-from-zero rounding (the result
stays a float vector with integral components). -/
def roundVec3 (v : Vec3) : Vec3 :=
  ⟨(rustRound v.x : ℚ), (rustRound v.y : ℚ), (rustRound v.z : ℚ)⟩

/-- The n-th cell yielded by the lib.rs trace iterator. -/
def traceCell (origin dir : Vec3) (n : ℕ) : Vec3 :=
  roundVec3 (tracePos origin dir n)

/-- lib.rs trace: the assert rejects a direction whose squared length is at
most the epsilon (modelled as none); otherwise the infinite cell sequence. -/
def trace (origin dir : Vec3) : Option (ℕ → Vec3) :=
  if dir.lengthSq ≤ EPS then none else some (traceCell origin dir)

/-- Model of glam::Vec4 (f32 components as exact rationals). -/
structure Vec4 where
  x : ℚ
  y : ℚ
  z : ℚ
  w : ℚ
deriving DecidableEq

/-- Model of glam::Mat4: four column vectors. -/
structure Mat4 where
  xAxis : Vec4
  yAxis : Vec4
  zAxis : Vec4
  wAxis : Vec4
deriving DecidableEq

/-- Matrix application to a 4-vector (linear combination of the columns). -/
def mulVec4 (m : Mat4) (v : Vec4) : Vec4 :=
  ⟨m.xAxis.x * v.x + m.yAxis.x * v.y + m.zAxis.x * v.z + m.wAxis.x * v.w,
   m.xAxis.y * v.x + m.yAxis.y * v.y + m.zAxis.y * v.z + m.wAxis.y * v.w,
   m.xAxis.z * v.x + m.yAxis.z * v.y + m.zAxis.z * v.z + m.wAxis.z * v.w,
   m.xAxis.w * v.x + m.yAxis.w * v.y + m.zAxis.w * v.z + m.wAxis.w * v.w⟩

/-- glam Mat4 multiplication: each column of the product is the left matrix
applied to the corresponding column of the right matrix. -/
def Mat4.mul (m n : Mat4) : Mat4 :=
  ⟨mulVec4 m n.xAxis, mulVec4 m n.yAxis, mulVec4 m n.zAxis, mulVec4 m n.wAxis⟩

/-- glam Mat4::transform_point3: apply the upper 3x3 part and add the
translation column, ignoring the fourth row. -/
def Mat4.transformPoint3 (m : Mat4) (p : Vec3) : Vec3 :=
  ⟨m.xAxis.x * p.x + m.yAxis.x * p.y + m.zAxis.x * p.z + m.wAxis.x,
   m.xAxis.y * p.x + m.yAxis.y * p.y + m.zAxis.y * p.z + m.wAxis.y,
   m.xAxis.z * p.x + m.yAxis.z * p.y + m.zAxis.z * p.z + m.wAxis.z⟩

/-- glam Mat4::transform_vector3: apply the upper 3x3 part only. -/
def Mat4.transformVector3 (m : Mat4) (p : Vec3) : Vec3 :=
  ⟨m.xAxis.x * p.x + m.yAxis.x * p.y + m.zAxis.x * p.z,
   m.xAxis.y * p.x + m.yAxis.y * p.y + m.zAxis.y * p.z,
   m.xAxis.z * p.x + m.yAxis.z * p.y + m.zAxis.z * p.z⟩

/-- glam Mat4::IDENTITY. -/
def idMat4 : Mat4 :=
  ⟨⟨1, 0, 0, 0⟩, ⟨0, 1, 0, 0⟩, ⟨0, 0, 1, 0⟩, ⟨0, 0, 0, 1⟩⟩

/-- glam Mat4::inverse via the standard cofactor routine; exact over ℚ.
When the determinant is zero the reciprocal 1/0 = 0 makes every entry 0
(the glam f32 version produces non-finite entries there; both degenerate
cases are rejected by the epsilon check of the trace call that consumes the
inverted camera, see buildView). -/
def Mat4.inverse (m : Mat4) : Mat4 :=
  let a00 := m.xAxis.x
  let a01 := m.xAxis.y
  let a02 := m.xAxis.z
  let a03 := m.xAxis.w
  let a10 := m.yAxis.x
  let a11 := m.yAxis.y
  let a12 := m.yAxis.z
  let a13 := m.yAxis.w
  let a20 := m.zAxis.x
  let a21 := m.zAxis.y
  let a22 := m.zAxis.z
  let a23 := m.zAxis.w
  let a30 := m.wAxis.x
  let a31 := m.wAxis.y
  let a32 := m.wAxis.z
  let a33 := m.wAxis.w
  let b00 := a00 * a11 - a01 * a10
  let b01 := a00 * a12 - a02 * a10
  let b02 := a00 * a13 - a03 * a10
  let b03 := a01 * a12 - a02 * a11
  let b04 := a01 * a13 - a03 * a11
  let b05 := a02 * a13 - a03 * a12
  let b06 := a20 * a31 - a21 * a30
  let b07 := a20 * a32 - a22 * a30
  let b08 := a20 * a33 - a23 * a30
  let b09 := a21 * a32 - a22 * a31
  let b10 := a21 * a33 - a23 * a31
  let b11 := a22 * a33 - a23 * a32
  let det := b00 * b11 - b01 * b10 + b02 * b09 + b03 * b08 - b04 * b07 + b05 * b06
  let invDet := 1 / det
  { xAxis := ⟨(a11 * b11 - a12 * b10 + a13 * b09) * invDet,
              (a02 * b10 - a01 * b11 - a03 * b09) * invDet,
              (a31 * b05 - a32 * b04 + a33 * b03) * invDet,
              (a22 * b04 - a21 * b05 - a23 * b03) * invDet⟩
    yAxis := ⟨(a12 * b08 - a10 * b11 - a13 * b07) * invDet,
              (a00 * b11 - a02 * b08 + a03 * b07) * invDet,
              (a32 * b02 - a30 * b05 - a33 * b01) * invDet,
              (a20 * b05 - a22 * b02 + a23 * b01) * invDet⟩
    zAxis := ⟨(a10 * b10 - a11 * b08 + a13 * b06) * invDet,
              (a01 * b08 - a00 * b10 - a03 * b06) * invDet,
              (a30 * b04 - a31 * b02 + a33 * b00) * invDet,
              (a21 * b02 - a20 * b04 - a23 * b00) * invDet⟩
    wAxis := ⟨(a11 * b07 - a10 * b09 - a12 * b06) * invDet,
              (a00 * b09 - a01 * b07 + a02 * b06) * invDet,
              (a31 * b01 - a30 * b03 - a32 * b00) * invDet,
              (a20 * b03 - a21 * b01 + a22 * b00) * invDet⟩ }

/-- The Camera heading enumeration (identical in lib.rs and main.rs). -/
inductive Camera where
  | obliqueNorth
  | obliqueEast
  | obliqueSouth
  | obliqueWest
deriving DecidableEq

/-- glam Mat4::from_rotation_z, parametric in the cosine and sine values:
the f32 results of cos/sin at multiples of FRAC_PI_2 are platform library
values (not exactly 0 and 1), so the theorems quantify over them. -/
def rotZ (c s : ℚ) : Mat4 :=
  ⟨⟨c, s, 0, 0⟩, ⟨-s, c, 0, 0⟩, ⟨0, 0, 1, 0⟩, ⟨0, 0, 0, 1⟩⟩

/-- The identity with z_axis.x = -ob and z_axis.y = ob, the state of `ret`
after the oblique shear step of both From(Camera) implementations. -/
def shearOblique (ob : ℚ) : Mat4 :=
  ⟨⟨1, 0, 0, 0⟩, ⟨0, 1, 0, 0⟩, ⟨-ob, ob, 1, 0⟩, ⟨0, 0, 0, 1⟩⟩

/-- The f32 cos/sin values at 1, 2 and 3 times FRAC_PI_2 used by
Mat4::from_rotation_z in the two camera maps (kept abstract). -/
structure TrigConsts where
  c1 : ℚ
  s1 : ℚ
  c2 : ℚ
  s2 : ℚ
  c3 : ℚ
  s3 : ℚ

/-- The exactly representable f32 nearest to FRAC_1_SQRT_2
(bit pattern 0x3F3504F3). -/
def f32FracInvSqrt2 : ℚ := 11863283 / 16777216

/-- lib.rs impl From(Camera) for Mat4: oblique shear with OB = 0.5, then a
rotation about z by 0, 1, 2 or 3 quarter turns. -/
def libFromCamera (t : TrigConsts) (c : Camera) : Mat4 :=
  match c with
  | .obliqueNorth => shearOblique (1 / 2)
  | .obliqueEast => Mat4.mul (shearOblique (1 / 2)) (rotZ t.c1 t.s1)
  | .obliqueSouth => Mat4.mul (shearOblique (1 / 2)) (rotZ t.c2 t.s2)
  | .obliqueWest => Mat4.mul (shearOblique (1 / 2)) (rotZ t.c3 t.s3)

/-- main.rs impl From(Camera) for Mat4: identical except that OB is
FRAC_1_SQRT_2 (the 0.5 variant is commented out in the source). -/
def mainFromCamera (t : TrigConsts) (c : Camera) : Mat4 :=
  match c with
  | .obliqueNorth => shearOblique f32FracInvSqrt2
  | .obliqueEast => Mat4.mul (shearOblique f32FracInvSqrt2) (rotZ t.c1 t.s1)
  | .obliqueSouth => Mat4.mul (shearOblique f32FracInvSqrt2) (rotZ t.c2 t.s2)
  | .obliqueWest => Mat4.mul (shearOblique f32FracInvSqrt2) (rotZ t.c3 t.s3)

/-- Ideal quarter-turn trig values, one concrete instantiation of the
abstract trig constants (ObliqueNorth uses no rotation at all, so the C10
counterexample does not depend on this choice). -/
def tIdeal : TrigConsts := ⟨0, 1, -1, 0, 0, -1⟩

/-- The inclusive integer range lo..=hi as a list (a Rust lo..=hi loop). -/
def intRange (lo hi : ℤ) : List ℤ :=
  (List.range (hi + 1 - lo).toNat).map (fun i : ℕ => lo + (i : ℤ))

/-- The scan order of the build_model triple loop over the fixed cube with
N = 64: z outermost, then y, then x. -/
def cubePositions : List IVec3 :=
  (intRange (-64) 64).flatMap (fun z =>
    (intRange (-64) 64).flatMap (fun y =>
      (intRange (-64) 64).map (fun x => (⟨x, y, z⟩ : IVec3))))

/-- main.rs Prism: a focus image bound to a camera matrix. -/
structure Prism where
  image : FocusImage
  camera : Mat4

/-- main.rs Prism::sample: sample the focus image at the camera-transformed
point. -/
def Prism.sample (v : Prism) (pos : Vec3) : Option Pixel :=
  v.image.sample (v.camera.transformPoint3 pos)

/-- main.rs Prism::normal: the camera-transformed unit z vector. -/
def Prism.normal (v : Prism) : Vec3 :=
  v.camera.transformVector3 ⟨0, 0, 1⟩

/-- main.rs VoxelMatch. -/
structure VoxelMatch where
  color : Pixel
  normal : Vec3
deriving DecidableEq

/-- The exact float position of an integer grid cell (i32 as f32, exact for
the cube coordinates). -/
def toVec3 (p : IVec3) : Vec3 := ⟨(p.x : ℚ), (p.y : ℚ), (p.z : ℚ)⟩

/-- The matches vector collected by the inner view loop of build_model: one
entry per view whose sample is present, in view order. -/
def matchesAt (views : List Prism) (pos : Vec3) : List VoxelMatch :=
  views.filterMap
    (fun view => (view.sample pos).map (fun color => ⟨color, view.normal⟩))

/-- The hits map of build_model: the triple scan loop inserts
position -> matches whenever every view matched (matches.len() ==
views.len()); modelled as a fold of function updates over the scan order. -/
def hitsAt (views : List Prism) (p : IVec3) : Option (List VoxelMatch) :=
  (cubePositions.foldl
    (fun m q =>
      if (matchesAt views (toVec3 q)).length = views.length then
        fun r => if r = q then some (matchesAt views (toVec3 q)) else m r
      else m)
    (fun _ => none)) p

/-- The 6 face-neighbour offsets in the x, y, z triple-loop order of the
cleanup pass (the loop skips entries with |x|+|y|+|z| different from 1). -/
def faceOffsets : List IVec3 :=
  ((intRange (-1) 1).flatMap (fun x =>
    (intRange (-1) 1).flatMap (fun y =>
      (intRange (-1) 1).map (fun z => (⟨x, y, z⟩ : IVec3))))).filter
    (fun d => decide (|d.x| + |d.y| + |d.z| = 1))

/-- The exposed faces of an accepted position: the neighbour offsets whose
cell is absent from the hits map, in loop order. -/
def exposedFaces (hits : IVec3 → Option (List VoxelMatch)) (p : IVec3) :
    List IVec3 :=
  faceOffsets.filter (fun d => (hits (p + d)).isNone)

/-- The fold of Vec3 addition over the exposed-face offsets (each pushed as
d.as_vec3() in the source). -/
def vsumFaces (l : List IVec3) : Vec3 :=
  l.foldl (fun a d => a + toVec3 d) ⟨0, 0, 0⟩

/-- Fuel-based integer square root scan (exact floor square root whenever
the fuel is at least the root; structural recursion so kernel reduction
works). -/
def natSqrtAux : ℕ → ℕ → ℕ → ℕ
  | 0, _, r => r
  | fuel + 1, n, r => if (r + 1) * (r + 1) ≤ n then natSqrtAux fuel n (r + 1) else r

/-- Floor integer square root (fuel n suffices since sqrt n ≤ n). -/
def natSqrt (n : ℕ) : ℕ := natSqrtAux n n 0

/-- Model of f32 sqrt: exact on rationals that are squares of rationals (the
only radicands reached by the theorems below), junk elsewhere. -/
def ratSqrt (q : ℚ) : ℚ :=
  (natSqrt q.num.toNat : ℚ) / (natSqrt q.den : ℚ)

/-- The binary exponent (floor log2) of a rational whose denominator is a
power of two, as every finite f32 value is: the exponent of the numerator
minus the exponent of the denominator. -/
def dyadicExp (q : ℚ) : ℤ := (natLog2 q.num.natAbs : ℤ) - (natLog2 q.den : ℤ)

/-- glam Vec3::normalize: divide by the length.  For the zero vector the f32
code produces NaN components; over ℚ division by zero yields the zero
vector.  Both degenerate values make every dot-product key of the candidate
selection equal, so the selected candidate (the first) agrees between model
and program; no claim below depends on the degenerate value itself. -/
def normalize3 (v : Vec3) : Vec3 :=
  let len := ratSqrt v.lengthSq
  ⟨v.x / len, v.y / len, v.z / len⟩

/-- glam Vec3::dot. -/
def dot3 (a b : Vec3) : ℚ := a.x * b.x + a.y * b.y + a.z * b.z

/-- The IEEE-754 single-precision bit pattern of a finite, exactly
representable, normal rational (junk on other inputs; every value it is
applied to below is of this form).  Models Rust f32::to_bits: sign bit,
biased exponent, then the 23 fraction bits. -/
def f32ToBits (q : ℚ) : ℕ :=
  if q = 0 then 0
  else
    (if q < 0 then 2 ^ 31 else 0) +
      (dyadicExp |q| + 127).toNat * 2 ^ 23 +
      ((|q| / (2 : ℚ) ^ dyadicExp |q| - 1) * 2 ^ 23).num.toNat

/-- Rust Iterator::min_by_key (first minimal element wins): the fold keeps
the earliest element whose key is strictly smallest so far.  With the
cmp::Reverse(bits) key of build_model this returns the earliest candidate
with the largest bit pattern. -/
def minByRevBits (key : VoxelMatch → ℕ) (l : List VoxelMatch) :
    Option VoxelMatch :=
  l.foldl
    (fun acc m =>
      match acc with
      | none => some m
      | some b => if key b < key m then some m else acc)
    none

/-- The color chosen by the cleanup pass of build_model for one accepted
position: estimate the surface normal from the exposed faces, then take the
candidate minimizing cmp::Reverse(dot.to_bits()).  The source unwrap cannot
fail when the matches vector is non-empty (non-empty view list); the getD
default mirrors that dead panic branch. -/
def chooseColor (hits : IVec3 → Option (List VoxelMatch)) (p : IVec3)
    (ms : List VoxelMatch) : Pixel :=
  let normal := normalize3 (vsumFaces (exposedFaces hits p))
  ((minByRevBits (fun m => f32ToBits (dot3 m.normal normal)) ms).map
    (fun m => m.color)).getD DEFAULT_KEY

/-- main.rs build_model, as the function from positions to the optional
final color: the result-insertion loop iterates over the hits entries and
inserts under the same key, so the result map is the pointwise image of the
hits map under the cleanup pass.  The asserted precondition of a non-empty
view list is carried as a hypothesis by the theorems below. -/
def buildModel (views : List Prism) (p : IVec3) : Option Pixel :=
  (hitsAt views p).map (fun ms => chooseColor (hitsAt views) p ms)

/-- The first candidate color of the C2 scenario. -/
def colA : Pixel := ⟨200, 0, 0, 255⟩

/-- The second candidate color of the C2 scenario. -/
def colB : Pixel := ⟨0, 200, 0, 255⟩

/-- 4x4 source image for prism A: markers at (1,0) and (0,1) give center
(1,1); the single interior non-key pixel colA sits at source (2,2), which is
cell (1,1) of the stripped 3x3 image, so the focus image samples Some
exactly at rounded points (0,0). -/
def imgPrismA : Image :=
  { width := 4
    height := 4
    pix := fun x y =>
      if x = 1 ∧ y = 0 then ⟨9, 9, 9, 9⟩
      else if x = 0 ∧ y = 1 then ⟨9, 9, 9, 9⟩
      else if x = 2 ∧ y = 2 then colA
      else ⟨0, 0, 0, 0⟩ }

/-- Like imgPrismA but carrying colB. -/
def imgPrismB : Image :=
  { width := 4
    height := 4
    pix := fun x y =>
      if x = 1 ∧ y = 0 then ⟨9, 9, 9, 9⟩
      else if x = 0 ∧ y = 1 then ⟨9, 9, 9, 9⟩
      else if x = 2 ∧ y = 2 then colB
      else ⟨0, 0, 0, 0⟩ }

/-- The focus image of prism A (construction succeeds; getD default dead). -/
def fiPrismA : FocusImage :=
  ((FocusImage.tryFrom imgPrismA).toOption).getD ⟨emptyImage, ⟨0, 0⟩⟩

/-- The focus image of prism B (construction succeeds; getD default dead). -/
def fiPrismB : FocusImage :=
  ((FocusImage.tryFrom imgPrismB).toOption).getD ⟨emptyImage, ⟨0, 0⟩⟩

/-- Camera of prism B: identity on x and y, z axis (0, 0, -1/2), so its view
normal is (0, 0, -1/2) while its sampling footprint (which only reads the
x and y components) matches prism A's. -/
def camB : Mat4 :=
  ⟨⟨1, 0, 0, 0⟩, ⟨0, 1, 0, 0⟩, ⟨0, 0, -(1 / 2), 0⟩, ⟨0, 0, 0, 1⟩⟩

/-- Prism A: the focus image under the identity camera (normal (0,0,1)). -/
def prismA : Prism := ⟨fiPrismA, idMat4⟩

/-- Prism B: the same footprint under camB (normal (0,0,-1/2)). -/
def prismB : Prism := ⟨fiPrismB, camB⟩

/-- lib.rs BoundingBox (min and max corners). -/
structure BoundingBox where
  min : Vec3
  max : Vec3
deriving DecidableEq

/-- lib.rs Body trait, modelled as a record of the two capabilities
build_view consumes: the optional sample at a point and the bounding box
value its bounding_box method returns (the trait's default implementation
returns the all-zero BoundingBox::default()). -/
structure BodyM (α : Type) where
  sample : Vec3 → Option α
  boundingBox : BoundingBox

/-- lib.rs BoundingBox::corners: eight corners enumerated by three bits
(bit k of the index selects max over min on axis k). -/
def corners (b : BoundingBox) : List Vec3 :=
  (List.range 8).map (fun bits =>
    ⟨b.min.x + (b.max.x - b.min.x) * ((bits % 2 : ℕ) : ℚ),
     b.min.y + (b.max.y - b.min.y) * ((bits / 2 % 2 : ℕ) : ℚ),
     b.min.z + (b.max.z - b.min.z) * ((bits / 4 % 2 : ℕ) : ℚ)⟩)

/-- glam Vec3::min, componentwise. -/
def vmin3 (a b : Vec3) : Vec3 := ⟨min a.x b.x, min a.y b.y, min a.z b.z⟩

/-- glam Vec3::max, componentwise. -/
def vmax3 (a b : Vec3) : Vec3 := ⟨max a.x b.x, max a.y b.y, max a.z b.z⟩

/-- lib.rs BoundingBox::screen_bounds: fold componentwise min and max over
the camera-transformed corners (the plus and minus infinity fold seeds of
the f32 code are modelled by seeding with the first transformed corner; the
corner list always has eight entries), then return the floor of the minimum
as origin and the ceiling of the extent as size, x and y components only. -/
def screenBounds (b : BoundingBox) (camera : Mat4) : IVec2 × IVec2 :=
  match (corners b).map (fun p => camera.transformPoint3 p) with
  | [] => (⟨0, 0⟩, ⟨0, 0⟩)
  | q :: rest =>
    (⟨⌊(rest.foldl vmin3 q).x⌋, ⌊(rest.foldl vmin3 q).y⌋⟩,
     ⟨⌈(rest.foldl vmax3 q).x - (rest.foldl vmin3 q).x⌉,
      ⌈(rest.foldl vmax3 q).y - (rest.foldl vmin3 q).y⌉⟩)

/-- The ray-march cap of build_view. -/
def TRACE_LIMIT : ℕ := 256

/-- The find_map over the first TRACE_LIMIT traced cells: the first cell
whose sample is present, paired with its sampled value. -/
def firstHit {α : Type} (body : BodyM α) (pos dir : Vec3) : Option (Vec3 × α) :=
  ((List.range TRACE_LIMIT).map (fun k => traceCell pos dir k)).findSome?
    (fun cell => (body.sample cell).map (fun val => (cell, val)))

/-- The 3D ray origin of a screen pixel in build_view: flip the image y
axis, offset by the screen origin, pull back through the camera inverse. -/
def rayOrigin {α : Type} (body : BodyM α) (camera : Mat4) (x y : ℤ) : Vec3 :=
  (Mat4.inverse camera).transformPoint3
    ⟨(x : ℚ) + (((screenBounds body.boundingBox camera).1).x : ℚ),
     ((((screenBounds body.boundingBox camera).2).y : ℚ) - (y : ℚ) - 1) +
       (((screenBounds body.boundingBox camera).1).y : ℚ),
     0⟩

/-- The ray direction of build_view: the camera-inverse image of the
towards-scene direction (0, 0, -1), identical for every pixel. -/
def rayDir (camera : Mat4) : Vec3 :=
  (Mat4.inverse camera).transformVector3 ⟨0, 0, -1⟩

/-- The body of the pixel-insertion loop of build_view: insert the pixel's
result into the map when the ray found a hit, leave the map unchanged
otherwise (the Rust if-let around ret.insert). -/
def insertHit {α β : Type} [DecidableEq α] (f : α → Option β)
    (m : α → Option β) (q : α) : α → Option β :=
  match f q with
  | some result => fun r => if r = q then some result else m r
  | none => m

/-- lib.rs build_view.  none models the panic of the assert inside the
trace call, reached as soon as the pixel loops are non-empty while the ray
direction fails the epsilon check; otherwise the sparse pixel map is built
by folding the per-pixel insertions (insert only when the ray finds a hit)
over the y-outer, x-inner pixel loops. -/
def buildView {α : Type} (body : BodyM α) (camera : Mat4) :
    Option ((ℤ × ℤ) → Option (Vec3 × α)) :=
  if (screenBounds body.boundingBox camera).2.x ≤ 0 ∨
      (screenBounds body.boundingBox camera).2.y ≤ 0 then
    some (fun _ => none)
  else if (rayDir camera).lengthSq ≤ EPS then none
  else
    some
      (((intRange 0 ((screenBounds body.boundingBox camera).2.y - 1)).flatMap
          (fun y =>
            (intRange 0 ((screenBounds body.boundingBox camera).2.x - 1)).map
              (fun x => (x, y)))).foldl
        (insertHit
          (fun q => firstHit body (rayOrigin body camera q.1 q.2) (rayDir camera)))
        (fun _ => none))

/-- The pixel map of buildView applied at one pixel (to state closed facts
without equating functions). -/
def buildViewAt {α : Type} (body : BodyM α) (camera : Mat4) (p : ℤ × ℤ) :
    Option (Option (Vec3 × α)) :=
  (buildView body camera).map (fun m => m p)

/-- A Body whose sample is present everywhere and whose bounding_box is the
default all-zero box (a legal Body implementation: the trait's bounding_box
has exactly this default). -/
def bodyAll : BodyM ℕ :=
  ⟨fun _ => some 7, ⟨⟨0, 0, 0⟩, ⟨0, 0, 0⟩⟩⟩

/-- vox_format Voxel: an i8 point and a u8 color index (values stored after
the source's `as i8` / `as u8` casts). -/
structure VoxVoxel where
  point : IVec3
  colorIndex : ℕ
deriving DecidableEq

/-- vox_format Model: an u32 size and the voxel list. -/
structure VoxModel where
  size : IVec3
  voxels : List VoxVoxel
deriving DecidableEq

/-- vox_format VoxData as produced by to_vox: its model list and the
palette entries written by the final copy loop, in index order. -/
structure VoxDataM where
  models : List VoxModel
  palette : List Pixel
deriving DecidableEq

/-- The Rust `as u8` cast on an index. -/
def wrapU8 (n : ℕ) : ℕ := n % 256

/-- The Rust `as i8` cast on a coordinate. -/
def wrapI8 (n : ℤ) : ℤ := (n + 128) % 256 - 128

/-- The `as i8` cast componentwise on a rebased position. -/
def wrapI8v (p : IVec3) : IVec3 := ⟨wrapI8 p.x, wrapI8 p.y, wrapI8 p.z⟩

/-- glam IVec3::min, componentwise. -/
def minI3 (a b : IVec3) : IVec3 := ⟨min a.x b.x, min a.y b.y, min a.z b.z⟩

/-- glam IVec3::max, componentwise. -/
def maxI3 (a b : IVec3) : IVec3 := ⟨max a.x b.x, max a.y b.y, max a.z b.z⟩

/-- The reduce of IVec3::min over the keys of the input map, in iteration
order (the unwrap panics on an empty map; the empty case never reaches this
definition). -/
def keyMin : List (IVec3 × Pixel) → IVec3
  | [] => ⟨0, 0, 0⟩
  | e0 :: rest => rest.foldl (fun a kv => minI3 a kv.1) e0.1

/-- The reduce of IVec3::max over the keys of the input map. -/
def keyMax : List (IVec3 × Pixel) → IVec3
  | [] => ⟨0, 0, 0⟩
  | e0 :: rest => rest.foldl (fun a kv => maxI3 a kv.1) e0.1

/-- The body of the to_vox entry loop: find the entry's color in the palette
(first position with an equal color) or append it, then push the voxel with
the rebased position cast to i8 and the color index cast to u8. -/
def toVoxStep (minPos : IVec3) (acc : List Pixel × List VoxVoxel)
    (entry : IVec3 × Pixel) : List Pixel × List VoxVoxel :=
  match List.findIdx? (fun c => decide (c = entry.2)) acc.1 with
  | some i => (acc.1, acc.2 ++ [⟨wrapI8v (entry.1 - minPos), wrapU8 i⟩])
  | none =>
    (acc.1 ++ [entry.2],
     acc.2 ++ [⟨wrapI8v (entry.1 - minPos), wrapU8 acc.1.length⟩])

/-- main.rs to_vox over the entries of the sparse color map in iteration
order.  none models the two panics: the reduce().unwrap() on an empty map
and the assert!(i < 256) of the palette copy loop (which fires exactly when
more than 256 distinct colors were collected). -/
def toVox (model : List (IVec3 × Pixel)) : Option VoxDataM :=
  match model with
  | [] => none
  | e0 :: rest =>
    if 256 < ((e0 :: rest).foldl (toVoxStep (keyMin (e0 :: rest))) ([], [])).1.length
    then none
    else
      some
        ⟨[⟨keyMax (e0 :: rest) - keyMin (e0 :: rest) + (⟨1, 1, 1⟩ : IVec3),
           ((e0 :: rest).foldl (toVoxStep (keyMin (e0 :: rest))) ([], [])).2⟩],
         ((e0 :: rest).foldl (toVoxStep (keyMin (e0 :: rest))) ([], [])).1⟩

/-- First-occurrence color deduplication starting from a given palette: the
palette produced by repeatedly appending unseen colors. -/
def dedupInto (pal : List Pixel) (colors : List Pixel) : List Pixel :=
  colors.foldl (fun p c => if c ∈ p then p else p ++ [c]) pal

/-- The index of a color in a palette (first position with an equal color;
the palette length as a junk default when absent). -/
def paletteIndexOf (c : Pixel) (pal : List Pixel) : ℕ :=
  (List.findIdx? (fun d => decide (d = c)) pal).getD pal.length

/-- Componentwise order on integer vectors. -/
abbrev leI3 (a b : IVec3) : Prop := a.x ≤ b.x ∧ a.y ≤ b.y ∧ a.z ≤ b.z

/-- The two-entry wide model for the C9 counterexample: keys (0,0,0) and
(128,0,0) span an extent of 129 on the x axis. -/
def modelWide : List (IVec3 × Pixel) :=
  [(⟨0, 0, 0⟩, colA), (⟨128, 0, 0⟩, colA)]

/-- A one-entry model for the C9 witness. -/
def modelSmall : List (IVec3 × Pixel) := [(⟨2, 3, 4⟩, colA)]

/-- natLog2Aux brackets its argument between consecutive powers of two
whenever the fuel covers the argument. -/
theorem natLog2Aux_spec :
    ∀ fuel n : ℕ, 1 ≤ n → n ≤ fuel →
      2 ^ natLog2Aux fuel n ≤ n ∧ n < 2 ^ (natLog2Aux fuel n + 1) := by
  intro fuel
  induction fuel with
  | zero => intro n h1 h2; omega
  | succ fuel ih =>
    intro n h1 h2
    have heq : natLog2Aux (fuel + 1) n
        = if n ≤ 1 then 0 else natLog2Aux fuel (n / 2) + 1 := rfl
    rw [heq]
    split_ifs with hn
    · have hn1 : n = 1 := by omega
      subst hn1
      decide
    · have h1' : 1 ≤ n / 2 := by omega
      have h2' : n / 2 ≤ fuel := by omega
      obtain ⟨hl, hu⟩ := ih (n / 2) h1' h2'
      have e1 : 2 ^ (natLog2Aux fuel (n / 2) + 1)
          = 2 * 2 ^ natLog2Aux fuel (n / 2) := by ring
      have e2 : 2 ^ (natLog2Aux fuel (n / 2) + 1 + 1)
          = 2 * 2 ^ (natLog2Aux fuel (n / 2) + 1) := by ring
      omega

/-- natLog2 is the floor base-2 logarithm on positive naturals. -/
theorem natLog2_spec (n : ℕ) (h : 1 ≤ n) :
    2 ^ natLog2 n ≤ n ∧ n < 2 ^ (natLog2 n + 1) :=
  natLog2Aux_spec n n h le_rfl

/-- A positive rational lies strictly between the powers of two whose
exponent is the numerator exponent minus the denominator exponent, widened
by one on each side. -/
theorem ratPow2_bounds (q : ℚ) (hq : 0 < q) :
    (2 : ℚ) ^ ((natLog2 q.num.natAbs : ℤ) - (natLog2 q.den : ℤ) - 1) < q ∧
    q < (2 : ℚ) ^ ((natLog2 q.num.natAbs : ℤ) - (natLog2 q.den : ℤ) + 1) := by
  have hnum : 1 ≤ q.num.natAbs := by
    have h0 : 0 < q.num := Rat.num_pos.mpr hq
    omega
  have hden : 1 ≤ q.den := q.den_pos
  obtain ⟨hn1, hn2⟩ := natLog2_spec q.num.natAbs hnum
  obtain ⟨hd1, hd2⟩ := natLog2_spec q.den hden
  have hden0 : (0 : ℚ) < (q.den : ℚ) := by
    exact_mod_cast Nat.lt_of_lt_of_le Nat.zero_lt_one hden
  have h2' : q * (q.den : ℚ) = (q.num : ℚ) :=
    (eq_div_iff (ne_of_gt hden0)).mp (Rat.num_div_den q).symm
  have h3' : ((q.num.natAbs : ℕ) : ℚ) = (q.num : ℚ) := by
    have h0 : (0 : ℤ) ≤ q.num := le_of_lt (Rat.num_pos.mpr hq)
    rw [Int.cast_natAbs]
    exact_mod_cast abs_of_nonneg h0
  have hnQ : ((q.num.natAbs : ℕ) : ℚ) = q * (q.den : ℚ) := by
    rw [h3']
    exact h2'.symm
  have k1 : (2 : ℚ) ^ (natLog2 q.num.natAbs : ℤ) ≤ ((q.num.natAbs : ℕ) : ℚ) := by
    rw [zpow_natCast]
    exact_mod_cast hn1
  have k2 : ((q.num.natAbs : ℕ) : ℚ)
      < (2 : ℚ) ^ ((natLog2 q.num.natAbs : ℤ) + 1) := by
    have hcast : ((natLog2 q.num.natAbs : ℤ)) + 1
        = ((natLog2 q.num.natAbs + 1 : ℕ) : ℤ) := by push_cast; ring
    rw [hcast, zpow_natCast]
    exact_mod_cast hn2
  have k3 : (2 : ℚ) ^ (natLog2 q.den : ℤ) ≤ (q.den : ℚ) := by
    rw [zpow_natCast]
    exact_mod_cast hd1
  have k4 : (q.den : ℚ) < (2 : ℚ) ^ ((natLog2 q.den : ℤ) + 1) := by
    have hcast : ((natLog2 q.den : ℤ)) + 1 = ((natLog2 q.den + 1 : ℕ) : ℤ) := by
      push_cast
      ring
    rw [hcast, zpow_natCast]
    exact_mod_cast hd2
  set a : ℤ := (natLog2 q.num.natAbs : ℤ) with ha
  set b : ℤ := (natLog2 q.den : ℤ) with hb
  constructor
  · have h1 : (2 : ℚ) ^ (a - b - 1) * (q.den : ℚ)
        < (2 : ℚ) ^ (a - b - 1) * (2 : ℚ) ^ (b + 1) :=
      mul_lt_mul_of_pos_left k4 (zpow_pos (by norm_num) _)
    have h2 : (2 : ℚ) ^ (a - b - 1) * (2 : ℚ) ^ (b + 1) = (2 : ℚ) ^ a := by
      rw [← zpow_add₀ (by norm_num : (2 : ℚ) ≠ 0)]
      congr 1
      ring
    have h3 : (2 : ℚ) ^ (a - b - 1) * (q.den : ℚ) < q * (q.den : ℚ) := by
      rw [← hnQ]
      calc (2 : ℚ) ^ (a - b - 1) * (q.den : ℚ) < (2 : ℚ) ^ a := h2 ▸ h1
      _ ≤ ((q.num.natAbs : ℕ) : ℚ) := k1
    exact (mul_lt_mul_right hden0).mp h3
  · have h1 : q * (q.den : ℚ) < (2 : ℚ) ^ (a - b + 1) * (q.den : ℚ) := by
      rw [← hnQ]
      calc ((q.num.natAbs : ℕ) : ℚ) < (2 : ℚ) ^ (a + 1) := k2
      _ = (2 : ℚ) ^ (a - b + 1) * (2 : ℚ) ^ b := by
          rw [← zpow_add₀ (by norm_num : (2 : ℚ) ≠ 0)]
          congr 1
          ring
      _ ≤ (2 : ℚ) ^ (a - b + 1) * (q.den : ℚ) :=
          mul_le_mul_of_nonneg_left k3 (zpow_nonneg (by norm_num) _)
    exact (mul_lt_mul_right hden0).mp h1

/-- floorLog2 brackets every positive rational between consecutive powers
of two. -/
theorem floorLog2_spec (q : ℚ) (hq : 0 < q) :
    (2 : ℚ) ^ floorLog2 q ≤ q ∧ q < (2 : ℚ) ^ (floorLog2 q + 1) := by
  obtain ⟨low, high⟩ := ratPow2_bounds q hq
  unfold floorLog2
  split_ifs with hc
  · exact ⟨hc, high⟩
  · refine ⟨low.le, ?_⟩
    have he : (natLog2 q.num.natAbs : ℤ) - (natLog2 q.den : ℤ) - 1 + 1
        = (natLog2 q.num.natAbs : ℤ) - (natLog2 q.den : ℤ) := by ring
    rw [he]
    exact not_le.mp hc

/-- Round-to-nearest-even moves its argument by at most one half. -/
theorem roundTiesEven_err (x : ℚ) :
    |((roundTiesEven x : ℤ) : ℚ) - x| ≤ 1 / 2 := by
  have h1 : (⌊x⌋ : ℚ) ≤ x := Int.floor_le x
  have h2 : x < ⌊x⌋ + 1 := Int.lt_floor_add_one x
  unfold roundTiesEven
  split_ifs with hc1 hc2 hc3
  · rw [abs_le]
    constructor <;> linarith
  · push_cast
    rw [abs_le]
    constructor <;> linarith
  · rw [abs_le]
    constructor <;> linarith
  · push_cast
    rw [abs_le]
    constructor <;> linarith

/-- Round-to-nearest-even is exact on integers. -/
theorem roundTiesEven_intCast (m : ℤ) : roundTiesEven (m : ℚ) = m := by
  unfold roundTiesEven
  rw [Int.floor_intCast]
  have hc : (m : ℚ) - (m : ℚ) < 1 / 2 := by norm_num
  rw [if_pos hc]

/-- roundF32 at zero. -/
theorem roundF32_zero : roundF32 0 = 0 := by
  unfold roundF32
  rw [if_pos rfl]

/-- roundF32 on a positive argument, unfolded. -/
theorem roundF32_of_pos {q : ℚ} (h : 0 < q) :
    roundF32 q
      = ((roundTiesEven (q * 2 ^ (23 - floorLog2 q)) : ℤ) : ℚ) *
          2 ^ (floorLog2 q - 23) := by
  unfold roundF32
  rw [if_neg h.ne', if_neg (not_lt.mpr h.le)]

/-- The roundF32 error on a positive value is at most half an ulp:
2 ^ (floorLog2 q - 24). -/
theorem roundF32_err {q : ℚ} (h : 0 < q) :
    |roundF32 q - q| ≤ 2 ^ (floorLog2 q - 24) := by
  rw [roundF32_of_pos h]
  set e := floorLog2 q with he
  set m := q * 2 ^ (23 - e) with hm
  have hq' : q = m * 2 ^ (e - 23) := by
    rw [hm, mul_assoc, ← zpow_add₀ (by norm_num : (2 : ℚ) ≠ 0)]
    have hz : (23 - e) + (e - 23) = 0 := by ring
    rw [hz, zpow_zero, mul_one]
  calc |((roundTiesEven m : ℤ) : ℚ) * 2 ^ (e - 23) - q|
      = |((roundTiesEven m : ℤ) : ℚ) - m| * 2 ^ (e - 23) := by
        conv_lhs => rw [hq']
        rw [← sub_mul, abs_mul,
          abs_of_pos (zpow_pos (by norm_num : (0 : ℚ) < 2) _)]
  _ ≤ (1 / 2) * 2 ^ (e - 23) :=
      mul_le_mul_of_nonneg_right (roundTiesEven_err m)
        (zpow_nonneg (by norm_num) _)
  _ = 2 ^ (e - 24) := by
      have h12 : (1 : ℚ) / 2 = (2 : ℚ) ^ (-1 : ℤ) := by norm_num
      rw [h12, ← zpow_add₀ (by norm_num : (2 : ℚ) ≠ 0)]
      congr 1
      ring

/-- roundF32 is the identity on positive values whose scaled significand is
an integer. -/
theorem roundF32_exact {q : ℚ} (h : 0 < q) (m : ℤ)
    (hm : q * 2 ^ (23 - floorLog2 q) = (m : ℚ)) : roundF32 q = q := by
  rw [roundF32_of_pos h, hm, roundTiesEven_intCast, ← hm, mul_assoc,
    ← zpow_add₀ (by norm_num : (2 : ℚ) ≠ 0)]
  have hz : (23 - floorLog2 q) + (floorLog2 q - 23) = 0 := by ring
  rw [hz, zpow_zero, mul_one]

/-- roundF32 is exact on positive integers of magnitude at most 2^24: they
are exactly representable in f32, so the i32-to-f32 cast preserves them. -/
theorem roundF32_intCast_exact (n : ℤ) (h1 : 1 ≤ n) (h2 : n ≤ 2 ^ 24) :
    roundF32 (n : ℚ) = (n : ℚ) := by
  have hq : (0 : ℚ) < (n : ℚ) := by
    have h0 : (0 : ℤ) < n := by omega
    exact_mod_cast h0
  obtain ⟨hl, hu⟩ := floorLog2_spec (n : ℚ) hq
  have he24 : floorLog2 (n : ℚ) ≤ 24 := by
    by_contra hcon
    push_neg at hcon
    have h25 : (2 : ℚ) ^ (25 : ℤ) ≤ (2 : ℚ) ^ floorLog2 (n : ℚ) :=
      zpow_le_zpow_right₀ (by norm_num) (by omega)
    have hn24 : (n : ℚ) ≤ (2 : ℚ) ^ (24 : ℤ) := by
      calc (n : ℚ) ≤ (((2 : ℤ) ^ (24 : ℕ) : ℤ) : ℚ) := by exact_mod_cast h2
      _ = (2 : ℚ) ^ (24 : ℤ) := by norm_num
    have hbad : (2 : ℚ) ^ (25 : ℤ) ≤ (2 : ℚ) ^ (24 : ℤ) :=
      le_trans (le_trans h25 hl) hn24
    norm_num at hbad
  rcases lt_or_eq_of_le he24 with hlt | heq
  · obtain ⟨k, hk⟩ : ∃ k : ℕ, (23 : ℤ) - floorLog2 (n : ℚ) = (k : ℤ) :=
      ⟨(23 - floorLog2 (n : ℚ)).toNat, by omega⟩
    apply roundF32_exact hq (n * 2 ^ k)
    rw [hk, zpow_natCast]
    push_cast
    ring
  · have h1'' : (2 : ℤ) ^ (24 : ℕ) ≤ n := by
      have h1' : (((2 : ℤ) ^ (24 : ℕ) : ℤ) : ℚ) ≤ (n : ℚ) := by
        calc (((2 : ℤ) ^ (24 : ℕ) : ℤ) : ℚ) = (2 : ℚ) ^ (24 : ℤ) := by norm_num
        _ = (2 : ℚ) ^ floorLog2 (n : ℚ) := by rw [heq]
        _ ≤ (n : ℚ) := hl
      exact_mod_cast h1'
    have hn : n = 16777216 := by
      norm_num at h1'' h2
      omega
    apply roundF32_exact hq (2 ^ 23)
    rw [heq, hn]
    norm_num

/-- On the open unit interval the roundF32 error is at most 2^-25. -/
theorem roundF32_err_unit {x : ℚ} (h0 : 0 < x) (h1 : x < 1) :
    |roundF32 x - x| ≤ 2 ^ (-25 : ℤ) := by
  refine le_trans (roundF32_err h0) ?_
  have he : floorLog2 x ≤ -1 := by
    by_contra hcon
    push_neg at hcon
    have h2 : (2 : ℚ) ^ (0 : ℤ) ≤ (2 : ℚ) ^ floorLog2 x :=
      zpow_le_zpow_right₀ (by norm_num) (by omega)
    have h3 := (floorLog2_spec x h0).1
    rw [zpow_zero] at h2
    linarith
  exact zpow_le_zpow_right₀ (by norm_num) (by omega)

/-- Below 2^24 the roundF32 error is at most one half (the ulp is at most
one there). -/
theorem roundF32_err_le_half {y : ℚ} (h0 : 0 < y) (h1 : y < 2 ^ (24 : ℤ)) :
    |roundF32 y - y| ≤ 1 / 2 := by
  refine le_trans (roundF32_err h0) ?_
  have he : floorLog2 y ≤ 23 := by
    by_contra hcon
    push_neg at hcon
    have h2 : (2 : ℚ) ^ (24 : ℤ) ≤ (2 : ℚ) ^ floorLog2 y :=
      zpow_le_zpow_right₀ (by norm_num) (by omega)
    have h3 := (floorLog2_spec y h0).1
    linarith
  calc (2 : ℚ) ^ (floorLog2 y - 24) ≤ (2 : ℚ) ^ (-1 : ℤ) :=
      zpow_le_zpow_right₀ (by norm_num) (by omega)
  _ = 1 / 2 := by norm_num

/-- Per-axis behaviour of Rect normalize/denormalize under f32 rounding for
an axis extent s of at most 2^24 and offset a in [0, s): the normalized
coordinate lies in [0, 1) and the round trip moves the coordinate by at
most one unit. -/
theorem normAxis_spec (a s : ℤ) (ha0 : 0 ≤ a) (has : a < s)
    (hs : s ≤ 2 ^ 24) :
    (0 ≤ roundF32 (roundF32 (a : ℚ) / roundF32 (s : ℚ)) ∧
      roundF32 (roundF32 (a : ℚ) / roundF32 (s : ℚ)) < 1) ∧
    |⌊roundF32 (roundF32 (roundF32 (a : ℚ) / roundF32 (s : ℚ)) *
        roundF32 (s : ℚ))⌋ - a| ≤ 1 := by
  have hs1 : (1 : ℤ) ≤ s := by omega
  have hsc : roundF32 (s : ℚ) = (s : ℚ) := roundF32_intCast_exact s hs1 hs
  have hsQ0 : (0 : ℚ) < (s : ℚ) := by
    exact_mod_cast (by omega : (0 : ℤ) < s)
  have hsQ24 : (s : ℚ) ≤ 2 ^ (24 : ℤ) := by
    calc (s : ℚ) ≤ (((2 : ℤ) ^ (24 : ℕ) : ℤ) : ℚ) := by exact_mod_cast hs
    _ = (2 : ℚ) ^ (24 : ℤ) := by norm_num
  rcases eq_or_lt_of_le ha0 with ha | ha
  · have ha' : a = 0 := ha.symm
    subst ha'
    rw [hsc]
    have h00 : roundF32 (((0 : ℤ)) : ℚ) = 0 := by
      norm_num [roundF32_zero]
    rw [h00, zero_div, roundF32_zero, zero_mul, roundF32_zero]
    norm_num
  · have ha1 : (1 : ℤ) ≤ a := ha
    have hac : roundF32 (a : ℚ) = (a : ℚ) :=
      roundF32_intCast_exact a ha1 (by omega)
    rw [hsc, hac]
    have haQ0 : (0 : ℚ) < (a : ℚ) := by exact_mod_cast ha
    have haQ1 : (1 : ℚ) ≤ (a : ℚ) := by exact_mod_cast ha1
    have hasQ : (a : ℚ) ≤ (s : ℚ) - 1 := by
      have hz : a ≤ s - 1 := by omega
      have h' : ((a : ℚ)) ≤ ((s - 1 : ℤ) : ℚ) := by exact_mod_cast hz
      push_cast at h'
      exact h'
    set x : ℚ := (a : ℚ) / (s : ℚ) with hxdef
    have hx0 : 0 < x := div_pos haQ0 hsQ0
    have hsinv : (2 : ℚ) ^ (-24 : ℤ) ≤ 1 / (s : ℚ) := by
      have h1 : 1 / ((2 : ℚ) ^ (24 : ℤ)) ≤ 1 / (s : ℚ) :=
        one_div_le_one_div_of_le hsQ0 hsQ24
      calc (2 : ℚ) ^ (-24 : ℤ) = 1 / ((2 : ℚ) ^ (24 : ℤ)) := by
            rw [zpow_neg, one_div]
      _ ≤ 1 / (s : ℚ) := h1
    have hxub : x ≤ 1 - 1 / (s : ℚ) := by
      rw [hxdef, div_le_iff₀ hsQ0, sub_mul, one_mul, div_mul_cancel₀]
      · exact hasQ
      · exact ne_of_gt hsQ0
    have hx1 : x < 1 := by
      have h1 : 0 < 1 / (s : ℚ) := by positivity
      linarith
    have herr : |roundF32 x - x| ≤ 2 ^ (-25 : ℤ) := roundF32_err_unit hx0 hx1
    obtain ⟨herr1, herr2⟩ := abs_le.mp herr
    have hp25 : (0 : ℚ) < 2 ^ (-25 : ℤ) := zpow_pos (by norm_num) _
    have h24lit : (2 : ℚ) ^ (-24 : ℤ) = 1 / 16777216 := by norm_num
    have h25lit : (2 : ℚ) ^ (-25 : ℤ) = 1 / 33554432 := by norm_num
    rw [h25lit] at herr1 herr2
    rw [h24lit] at hsinv
    refine ⟨⟨?_, ?_⟩, ?_⟩
    · have hx_lb : (1 : ℚ) / 16777216 ≤ x := by
        calc (1 : ℚ) / 16777216 ≤ 1 / (s : ℚ) := hsinv
        _ ≤ x := by
          rw [hxdef]
          exact (div_le_div_iff_of_pos_right hsQ0).mpr haQ1
      linarith
    · linarith
    · set u : ℚ := roundF32 x with hu
      have hxs : x * (s : ℚ) = (a : ℚ) := by
        rw [hxdef, div_mul_cancel₀]
        exact ne_of_gt hsQ0
      have hy_err : |u * (s : ℚ) - (a : ℚ)| ≤ 1 / 2 := by
        have h1 : u * (s : ℚ) - (a : ℚ) = (u - x) * (s : ℚ) := by
          rw [sub_mul, hxs]
        rw [h1, abs_mul, abs_of_pos hsQ0]
        calc |u - x| * (s : ℚ) ≤ (2 : ℚ) ^ (-25 : ℤ) * (2 : ℚ) ^ (24 : ℤ) :=
            mul_le_mul herr hsQ24 (le_of_lt hsQ0) (le_of_lt hp25)
        _ = 1 / 2 := by
            rw [← zpow_add₀ (by norm_num : (2 : ℚ) ≠ 0)]
            norm_num
      obtain ⟨hy1, hy2⟩ := abs_le.mp hy_err
      have hy0 : 0 < u * (s : ℚ) := by linarith
      have hy24 : u * (s : ℚ) < 2 ^ (24 : ℤ) := by linarith
      have herr2' : |roundF32 (u * (s : ℚ)) - u * (s : ℚ)| ≤ 1 / 2 :=
        roundF32_err_le_half hy0 hy24
      obtain ⟨hz1, hz2⟩ := abs_le.mp herr2'
      have hzl : ((a : ℚ)) - 1 ≤ roundF32 (u * (s : ℚ)) := by linarith
      have hzu : roundF32 (u * (s : ℚ)) ≤ ((a : ℚ)) + 1 := by linarith
      have hfl : (a - 1 : ℤ) ≤ ⌊roundF32 (u * (s : ℚ))⌋ := by
        apply Int.le_floor.mpr
        push_cast
        exact hzl
      have hfu : ⌊roundF32 (u * (s : ℚ))⌋ ≤ a + 1 := by
        have h1 : (⌊roundF32 (u * (s : ℚ))⌋ : ℚ) ≤ ((a + 1 : ℤ) : ℚ) := by
          push_cast
          exact le_trans (Int.floor_le _) hzu
        exact_mod_cast h1
      rw [abs_le]
      omega

set_option maxRecDepth 8000 in
unseal Rat.add Rat.mul Rat.inv Rat.sub in
/-- Counterexample to claim C3 as stated: the rectangle [0, 16777217) x
[0, 1) and the interior point (16777216, 0) satisfy every hypothesis of the
claim, yet the x component of normalize is exactly 1, outside the claimed
[0, 1): f32 has a 24-bit significand, so the cast of the extent 2^24 + 1
rounds to 2^24 (tie to even) and the division gives 16777216 / 16777216. -/
theorem claim_C3_counterexample :
    rectC3big.min.x < rectC3big.max.x ∧ rectC3big.min.y < rectC3big.max.y ∧
    rectC3big.min.x ≤ pC3big.x ∧ pC3big.x < rectC3big.max.x ∧
    rectC3big.min.y ≤ pC3big.y ∧ pC3big.y < rectC3big.max.y ∧
    (rectC3big.normalize pC3big).x = 1 ∧
    ¬ (rectC3big.normalize pC3big).x < 1 := by
  decide

/-- Claim C3 (amended): for every Rect r with r.min < r.max componentwise
whose extent r.max - r.min is at most 2^24 on each axis (so the extent and
every in-range offset survive the i32-to-f32 cast exactly), and every
integer point p with r.min ≤ p < r.max componentwise, r.normalize p has
both components in [0, 1), and r.denormalize (r.normalize p) differs from p
by at most one unit on each axis.  Without the extent bound the [0, 1)
range fails (see the counterexample). -/
theorem claim_C3_amended (r : Rect) (p : IVec2)
    (_hxm : r.min.x < r.max.x) (_hym : r.min.y < r.max.y)
    (hsx : r.max.x - r.min.x ≤ 2 ^ 24) (hsy : r.max.y - r.min.y ≤ 2 ^ 24)
    (hx1 : r.min.x ≤ p.x) (hx2 : p.x < r.max.x)
    (hy1 : r.min.y ≤ p.y) (hy2 : p.y < r.max.y) :
    (0 ≤ (r.normalize p).x ∧ (r.normalize p).x < 1) ∧
    (0 ≤ (r.normalize p).y ∧ (r.normalize p).y < 1) ∧
    |(r.denormalize (r.normalize p)).x - p.x| ≤ 1 ∧
    |(r.denormalize (r.normalize p)).y - p.y| ≤ 1 := by
  have hX := normAxis_spec (p.x - r.min.x) (r.max.x - r.min.x)
    (by omega) (by omega) hsx
  have hY := normAxis_spec (p.y - r.min.y) (r.max.y - r.min.y)
    (by omega) (by omega) hsy
  have hnx : (r.normalize p).x
      = roundF32 (roundF32 ((p.x - r.min.x : ℤ) : ℚ) /
          roundF32 ((r.max.x - r.min.x : ℤ) : ℚ)) := rfl
  have hny : (r.normalize p).y
      = roundF32 (roundF32 ((p.y - r.min.y : ℤ) : ℚ) /
          roundF32 ((r.max.y - r.min.y : ℤ) : ℚ)) := rfl
  have hdx : (r.denormalize (r.normalize p)).x
      = r.min.x + ⌊roundF32 ((r.normalize p).x *
          roundF32 ((r.max.x - r.min.x : ℤ) : ℚ))⌋ := rfl
  have hdy : (r.denormalize (r.normalize p)).y
      = r.min.y + ⌊roundF32 ((r.normalize p).y *
          roundF32 ((r.max.y - r.min.y : ℤ) : ℚ))⌋ := rfl
  refine ⟨⟨?_, ?_⟩, ⟨?_, ?_⟩, ?_, ?_⟩
  · rw [hnx]
    exact hX.1.1
  · rw [hnx]
    exact hX.1.2
  · rw [hny]
    exact hY.1.1
  · rw [hny]
    exact hY.1.2
  · rw [hdx, hnx]
    have h1 := hX.2
    rw [abs_le] at h1 ⊢
    omega
  · rw [hdy, hny]
    have h2 := hY.2
    rw [abs_le] at h2 ⊢
    omega

/-- Witness for the amended C3 at the concrete rectangle [0,2)x[0,3) and
point (1,2). -/
theorem claim_C3_witness :
    (0 ≤ (rectC3.normalize pC3).x ∧ (rectC3.normalize pC3).x < 1) ∧
    (0 ≤ (rectC3.normalize pC3).y ∧ (rectC3.normalize pC3).y < 1) ∧
    |(rectC3.denormalize (rectC3.normalize pC3)).x - pC3.x| ≤ 1 ∧
    |(rectC3.denormalize (rectC3.normalize pC3)).y - pC3.y| ≤ 1 :=
  claim_C3_amended rectC3 pC3 (by decide) (by decide) (by decide)
    (by decide) (by decide) (by decide) (by decide) (by decide)

unseal Rat.add Rat.mul Rat.inv Rat.sub in
/-- Counterexample to claim C4 as stated: at the point (0, 1, 0) the cell
obtained by rounding both components and offsetting by the center, namely
(1, 2), is inside the stored image's bounds and holds a non-key pixel, yet
sample returns none (the code negates the rounded y component before adding
the center, which the claim's description omits). -/
theorem claim_C4_counterexample :
    fiC4.sample ⟨0, 1, 0⟩ = none ∧
    (0 ≤ rustRound (0 : ℚ) + fiC4.center.x ∧
      rustRound (0 : ℚ) + fiC4.center.x < (fiC4.image.width : ℤ)) ∧
    (0 ≤ rustRound (1 : ℚ) + fiC4.center.y ∧
      rustRound (1 : ℚ) + fiC4.center.y < (fiC4.image.height : ℤ)) ∧
    fiC4.image.pix (rustRound (0 : ℚ) + fiC4.center.x).toNat
      (rustRound (1 : ℚ) + fiC4.center.y).toNat ≠ DEFAULT_KEY := by
  decide

/-- Claim C4, amended: sample rounds the x and y components, then looks up
the cell (round x + center.x, center.y - round y) — the rounded y is negated
before the center offset — and returns the pixel stored there, except that it
returns none when that cell is outside the stored image's bounds (where both
coordinates are additionally required to be strictly positive, so column 0
and row 0 of the stored image are never hit) or holds the transparent key. -/
theorem claim_C4_amended (fi : FocusImage) (uv : Vec3) (p : Pixel) :
    fi.sample uv = some p ↔
      (0 < rustRound uv.x + fi.center.x ∧
       0 < -rustRound uv.y + fi.center.y ∧
       rustRound uv.x + fi.center.x < (fi.image.width : ℤ) ∧
       -rustRound uv.y + fi.center.y < (fi.image.height : ℤ) ∧
       fi.image.pix (rustRound uv.x + fi.center.x).toNat
         (-rustRound uv.y + fi.center.y).toNat = p ∧
       p ≠ DEFAULT_KEY) := by
  simp only [FocusImage.sample]
  split_ifs with h1 h2
  · simp only [reduceCtorEq, false_iff]
    rintro ⟨-, -, -, -, hp, hne⟩
    exact hne (hp ▸ h2)
  · simp only [Option.some_inj]
    constructor
    · rintro rfl
      exact ⟨h1.1, h1.2.1, h1.2.2.1, h1.2.2.2, rfl, h2⟩
    · rintro ⟨-, -, -, -, hp, -⟩
      exact hp
  · simp only [reduceCtorEq, false_iff]
    rintro ⟨ha, hb, hc, hd, -, -⟩
    exact h1 ⟨ha, hb, hc, hd⟩

/-- Helper: the FocusImage constructor succeeds exactly when the image is at
least 2x2 and both border filters are singletons. -/
theorem tryFrom_isOk_iff (img : Image) :
    (FocusImage.tryFrom img).isOk = true ↔
      (2 ≤ img.width ∧ 2 ≤ img.height ∧
       ((List.range img.width).filter
         (fun x => decide (img.pix x 0 ≠ img.pix 0 0))).length = 1 ∧
       ((List.range img.height).filter
         (fun y => decide (img.pix 0 y ≠ img.pix 0 0))).length = 1) := by
  unfold FocusImage.tryFrom
  split_ifs with hs
  · simp only [Except.isOk, Except.toBool]
    constructor
    · intro h
      exact absurd h (by simp)
    · intro h
      omega
  · push_neg at hs
    cases hfx : (List.range img.width).filter
        (fun x => decide (img.pix x 0 ≠ img.pix 0 0)) with
    | nil => simp [Except.isOk, Except.toBool, hs]
    | cons a tl =>
      cases tl with
      | nil =>
        cases hfy : (List.range img.height).filter
            (fun y => decide (img.pix 0 y ≠ img.pix 0 0)) with
        | nil => simp [Except.isOk, Except.toBool, hfy, hs]
        | cons b tl2 =>
          cases tl2 with
          | nil => simp [Except.isOk, Except.toBool, hfy, hs]
          | cons c tl3 => simp [Except.isOk, Except.toBool, hfy, hs]
      | cons b tl2 => simp [Except.isOk, Except.toBool, hs]

/-- Claim C5: an at-least-2x2 image whose row 0 has exactly one pixel
differing from the key at (0,0), at column cx, and whose column 0 has exactly
one such pixel, at row cy, yields a successful FocusImage construction with
center = (cx, cy). -/
theorem claim_C5 (img : Image) (cx cy : ℕ)
    (hw : 2 ≤ img.width) (hh : 2 ≤ img.height)
    (hx : (List.range img.width).filter
      (fun x => decide (img.pix x 0 ≠ img.pix 0 0)) = [cx])
    (hy : (List.range img.height).filter
      (fun y => decide (img.pix 0 y ≠ img.pix 0 0)) = [cy]) :
    ∃ fi, FocusImage.tryFrom img = .ok fi ∧ fi.center = ⟨(cx : ℤ), (cy : ℤ)⟩ := by
  unfold FocusImage.tryFrom
  rw [if_neg (by omega), hx, hy]
  exact ⟨_, rfl, rfl⟩

/-- Witness for C5 at the concrete 2x2 image with markers at (1,0) and (0,1). -/
theorem claim_C5_witness :
    ∃ fi, FocusImage.tryFrom imgC5 = .ok fi ∧ fi.center = ⟨(1 : ℤ), (1 : ℤ)⟩ :=
  claim_C5 imgC5 1 1 (by decide) (by decide) (by decide) (by decide)

/-- Claim C6: FocusImage construction errors (it never silently defaults) for
every image with width or height below 2, for every image whose row 0 does
not have exactly one pixel differing from the key, likewise for column 0; in
particular it fails for a 1x5 image, an all-key image, and an image with two
non-key pixels on row 0. -/
theorem claim_C6 :
    (∀ img : Image, img.width < 2 ∨ img.height < 2 →
      (FocusImage.tryFrom img).isOk = false) ∧
    (∀ img : Image,
      ((List.range img.width).filter
        (fun x => decide (img.pix x 0 ≠ img.pix 0 0))).length ≠ 1 →
      (FocusImage.tryFrom img).isOk = false) ∧
    (∀ img : Image,
      ((List.range img.height).filter
        (fun y => decide (img.pix 0 y ≠ img.pix 0 0))).length ≠ 1 →
      (FocusImage.tryFrom img).isOk = false) ∧
    (FocusImage.tryFrom img1x5).isOk = false ∧
    (FocusImage.tryFrom imgAllKey).isOk = false ∧
    (FocusImage.tryFrom imgTwoRow).isOk = false := by
  refine ⟨?_, ?_, ?_, by decide, by decide, by decide⟩
  · intro img h
    rw [← Bool.not_eq_true, tryFrom_isOk_iff]
    intro hc
    omega
  · intro img h
    rw [← Bool.not_eq_true, tryFrom_isOk_iff]
    intro hc
    exact h hc.2.2.1
  · intro img h
    rw [← Bool.not_eq_true, tryFrom_isOk_iff]
    intro hc
    exact h hc.2.2.2

/-- Witness for C6: the general error conditions applied at the concrete 1x5
and all-key images. -/
theorem claim_C6_witness :
    (FocusImage.tryFrom img1x5).isOk = false ∧
    (FocusImage.tryFrom imgAllKey).isOk = false :=
  ⟨claim_C6.1 img1x5 (Or.inl (by decide)),
   claim_C6.2.1 imgAllKey (by decide)⟩

/-- Ties-away-from-zero rounding never exceeds its argument by more than
half a unit. -/
theorem rustRound_le (q : ℚ) : (rustRound q : ℚ) ≤ q + 1 / 2 := by
  unfold rustRound
  split_ifs with h
  · exact Int.floor_le _
  · have h1 := Int.sub_one_lt_floor (-q + 1 / 2)
    push_cast
    linarith

/-- Ties-away-from-zero rounding never falls below its argument by more than
half a unit. -/
theorem le_rustRound (q : ℚ) : q - 1 / 2 ≤ (rustRound q : ℚ) := by
  unfold rustRound
  split_ifs with h
  · have h1 := Int.sub_one_lt_floor (q + 1 / 2)
    linarith
  · have h1 := Int.floor_le (-q + 1 / 2)
    push_cast
    linarith

/-- For a negative argument the upper half-unit bound is strict. -/
theorem rustRound_lt_of_neg (q : ℚ) (h : q < 0) :
    (rustRound q : ℚ) < q + 1 / 2 := by
  unfold rustRound
  rw [if_neg (not_le.mpr h)]
  have h1 := Int.floor_le (-q + 1 / 2)
  have h2 : (0 : ℤ) ≤ ⌊-q + 1 / 2⌋ := by
    rw [Int.le_floor]
    push_cast
    linarith
  by_contra hc
  push_neg at hc
  push_cast at hc
  have h3 : (⌊-q + 1 / 2⌋ : ℚ) ≤ -q - 1 / 2 := by linarith
  have h4 : ⌊-q + 1 / 2⌋ ≤ ⌊-q - 1 / 2⌋ := by
    rw [Int.le_floor]
    exact h3.trans (le_of_eq rfl)
  have h5 : (⌊-q - 1 / 2⌋ : ℚ) ≤ -q - 1 / 2 := Int.floor_le _
  have h6 : (-q - 1 / 2 : ℚ) < ⌊-q + 1 / 2⌋ := by
    have := Int.sub_one_lt_floor (-q + 1 / 2)
    linarith
  have : (⌊-q + 1 / 2⌋ : ℚ) ≤ (⌊-q - 1 / 2⌋ : ℚ) := by exact_mod_cast h4
  linarith

/-- For a nonnegative argument the lower half-unit bound is strict. -/
theorem lt_rustRound_of_nonneg (q : ℚ) (h : 0 ≤ q) :
    q - 1 / 2 < (rustRound q : ℚ) := by
  unfold rustRound
  rw [if_pos h]
  have := Int.sub_one_lt_floor (q + 1 / 2)
  linarith

/-- Ties-away-from-zero rounding is monotone. -/
theorem rustRound_mono {a b : ℚ} (h : a ≤ b) : rustRound a ≤ rustRound b := by
  unfold rustRound
  rcases le_or_lt 0 a with ha | ha
  · rw [if_pos ha, if_pos (ha.trans h)]
    exact Int.floor_mono (by linarith)
  · rcases le_or_lt 0 b with hb | hb
    · rw [if_neg (not_le.mpr ha), if_pos hb]
      have h1 : (0 : ℤ) ≤ ⌊-a + 1 / 2⌋ := by
        rw [Int.le_floor]
        push_cast
        linarith
      have h2 : (0 : ℤ) ≤ ⌊b + 1 / 2⌋ := by
        rw [Int.le_floor]
        push_cast
        linarith
      omega
    · rw [if_neg (not_le.mpr ha), if_neg (not_le.mpr hb)]
      have h1 : ⌊-b + 1 / 2⌋ ≤ ⌊-a + 1 / 2⌋ := Int.floor_mono (by linarith)
      omega

/-- One rounding step of size at most one moves the rounded value by at most
one, except from exactly minus a half (of the step) with a full-unit step. -/
theorem rustRound_step_nonneg (a d : ℚ) (hd0 : 0 ≤ d) (hd1 : d ≤ 1) :
    rustRound (a + d) - rustRound a ≤ 1 ∨ (d = 1 ∧ a = -(1 / 2)) := by
  rcases le_or_lt (rustRound (a + d) - rustRound a) 1 with h | h
  · exact Or.inl h
  · right
    have h2 : (2 : ℤ) ≤ rustRound (a + d) - rustRound a := by omega
    have h2' : ((2 : ℤ) : ℚ) ≤ ((rustRound (a + d) - rustRound a : ℤ) : ℚ) := by
      exact_mod_cast h2
    push_cast at h2'
    have hub : (rustRound (a + d) : ℚ) ≤ a + d + 1 / 2 := rustRound_le _
    have hlb : a - 1 / 2 ≤ (rustRound a : ℚ) := le_rustRound _
    have hd1' : d = 1 := by linarith
    subst hd1'
    refine ⟨rfl, ?_⟩
    have heq1 : (rustRound (a + 1) : ℚ) = a + 1 + 1 / 2 := by linarith
    have heq2 : (rustRound a : ℚ) = a - 1 / 2 := by linarith
    have hge : 0 ≤ a + 1 := by
      by_contra hneg
      push_neg at hneg
      have := rustRound_lt_of_neg (a + 1) hneg
      linarith
    have hlt : a < 0 := by
      by_contra hpos
      push_neg at hpos
      have := lt_rustRound_of_nonneg a hpos
      linarith
    have hm1 : (-2 : ℚ) < (rustRound a : ℚ) := by linarith
    have hm2 : (rustRound a : ℚ) < 0 := by linarith
    have hint : rustRound a = -1 := by
      have hm1' : (-2 : ℤ) < rustRound a := by exact_mod_cast hm1
      have hm2' : rustRound a < (0 : ℤ) := by exact_mod_cast hm2
      omega
    rw [hint] at heq2
    push_cast at heq2
    linarith

/-- Rounding ties away from zero commutes with negation. -/
theorem rustRound_neg (q : ℚ) : rustRound (-q) = -rustRound q := by
  unfold rustRound
  rcases lt_trichotomy q 0 with h | h | h
  · rw [if_pos (by linarith), if_neg (not_le.mpr h), neg_neg]
  · subst h
    norm_num
  · rw [if_neg (not_le.mpr (by linarith)), if_pos h.le, neg_neg]

/-- A rounding step of absolute size at most one moves the rounded value by
at most one, except exactly at the half-integer tie facing the step. -/
theorem rustRound_step (a d : ℚ) (hd : |d| ≤ 1) :
    |rustRound (a + d) - rustRound a| ≤ 1 ∨ (|d| = 1 ∧ a = -(d / 2)) := by
  rcases le_or_lt 0 d with h0 | h0
  · have h1 : d ≤ 1 := (abs_of_nonneg h0 ▸ hd)
    have hmono : rustRound a ≤ rustRound (a + d) := rustRound_mono (by linarith)
    rcases rustRound_step_nonneg a d h0 h1 with h | ⟨hd1, ha⟩
    · left
      rw [abs_le]
      omega
    · right
      subst hd1
      norm_num [ha]
  · have h1 : -d ≤ 1 := by
      rw [abs_of_neg h0] at hd
      exact hd
    have h0' : (0 : ℚ) ≤ -d := by linarith
    have hmono : rustRound (a + d) ≤ rustRound a := rustRound_mono (by linarith)
    have hkey := rustRound_step_nonneg (-a) (-d) h0' h1
    rw [show -a + -d = -(a + d) by ring, rustRound_neg, rustRound_neg] at hkey
    rcases hkey with h | ⟨hd1, ha⟩
    · left
      rw [abs_le]
      omega
    · right
      have hd1' : d = -1 := by linarith
      subst hd1'
      constructor
      · norm_num
      · have : a = 1 / 2 := by linarith
        rw [this]
        norm_num

/-- The scaled trace step has every component of absolute value at most one
whenever the direction passes the epsilon check. -/
theorem traceStep_abs_le (dir : Vec3) (h : EPS < dir.lengthSq) :
    |(traceStep dir).x| ≤ 1 ∧ |(traceStep dir).y| ≤ 1 ∧ |(traceStep dir).z| ≤ 1 := by
  set M := max |dir.x| (max |dir.y| |dir.z|) with hM
  have hMx : |dir.x| ≤ M := le_max_left _ _
  have hMy : |dir.y| ≤ M := le_trans (le_max_left _ _) (le_max_right _ _)
  have hMz : |dir.z| ≤ M := le_trans (le_max_right _ _) (le_max_right _ _)
  have hMpos : 0 < M := by
    by_contra hc
    push_neg at hc
    have hx : dir.x = 0 := abs_eq_zero.mp (le_antisymm (hMx.trans hc) (abs_nonneg _))
    have hy : dir.y = 0 := abs_eq_zero.mp (le_antisymm (hMy.trans hc) (abs_nonneg _))
    have hz : dir.z = 0 := abs_eq_zero.mp (le_antisymm (hMz.trans hc) (abs_nonneg _))
    have hl : dir.lengthSq = 0 := by
      unfold Vec3.lengthSq
      rw [hx, hy, hz]
      ring
    rw [hl] at h
    norm_num [EPS] at h
  have key : ∀ c : ℚ, |c| ≤ M → |(1 / M) * c| ≤ 1 := by
    intro c hc
    rw [abs_mul, abs_of_pos (by positivity : (0 : ℚ) < 1 / M)]
    rw [div_mul_eq_mul_div, one_mul, div_le_one hMpos]
    exact hc
  exact ⟨key dir.x hMx, key dir.y hMy, key dir.z hMz⟩

unseal Rat.add Rat.mul Rat.inv Rat.sub in
/-- Counterexample to claim C7 as stated: with origin (-1/2, 0, 0) and the
accepted direction (1, 0, 0), the first two traced cells are (-1, 0, 0) and
(1, 0, 0), which differ by two units on the x axis (the position sits exactly
on a rounding tie and f32 rounding ties away from zero). -/
theorem claim_C7_counterexample :
    EPS < Vec3.lengthSq ⟨1, 0, 0⟩ ∧
    traceCell ⟨-(1 / 2), 0, 0⟩ ⟨1, 0, 0⟩ 0 = ⟨-1, 0, 0⟩ ∧
    traceCell ⟨-(1 / 2), 0, 0⟩ ⟨1, 0, 0⟩ 1 = ⟨1, 0, 0⟩ ∧
    ¬ |(traceCell ⟨-(1 / 2), 0, 0⟩ ⟨1, 0, 0⟩ 1).x -
        (traceCell ⟨-(1 / 2), 0, 0⟩ ⟨1, 0, 0⟩ 0).x| ≤ 1 := by
  decide

/-- Claim C7, amended: trace rejects directions of squared length at or
below the epsilon; for accepted directions the cell sequence is produced
and two consecutive cells differ by at most one unit on each axis, except
exactly when that axis steps by a full unit from a position lying on the
half-integer rounding tie facing the step, in which case the cells jump by
two units there. -/
theorem claim_C7_amended :
    (∀ origin dir : Vec3, dir.lengthSq ≤ EPS → trace origin dir = none) ∧
    (∀ origin dir : Vec3, EPS < dir.lengthSq →
      trace origin dir = some (traceCell origin dir) ∧
      ∀ n : ℕ,
        (|(traceCell origin dir (n + 1)).x - (traceCell origin dir n).x| ≤ 1 ∨
          (|(traceStep dir).x| = 1 ∧
            (tracePos origin dir n).x = -((traceStep dir).x / 2))) ∧
        (|(traceCell origin dir (n + 1)).y - (traceCell origin dir n).y| ≤ 1 ∨
          (|(traceStep dir).y| = 1 ∧
            (tracePos origin dir n).y = -((traceStep dir).y / 2))) ∧
        (|(traceCell origin dir (n + 1)).z - (traceCell origin dir n).z| ≤ 1 ∨
          (|(traceStep dir).z| = 1 ∧
            (tracePos origin dir n).z = -((traceStep dir).z / 2)))) := by
  constructor
  · intro origin dir h
    unfold trace
    rw [if_pos h]
  · intro origin dir h
    have hstep := traceStep_abs_le dir h
    constructor
    · unfold trace
      rw [if_neg (not_le.mpr h)]
    · intro n
      have hx := rustRound_step (tracePos origin dir n).x (traceStep dir).x hstep.1
      have hy := rustRound_step (tracePos origin dir n).y (traceStep dir).y hstep.2.1
      have hz := rustRound_step (tracePos origin dir n).z (traceStep dir).z hstep.2.2
      refine ⟨?_, ?_, ?_⟩
      · rcases hx with h1 | h1
        · left
          have : (tracePos origin dir (n + 1)).x
              = (tracePos origin dir n).x + (traceStep dir).x := rfl
          show |(rustRound (tracePos origin dir (n + 1)).x : ℚ) -
            (rustRound (tracePos origin dir n).x : ℚ)| ≤ 1
          rw [this]
          exact_mod_cast h1
        · exact Or.inr h1
      · rcases hy with h1 | h1
        · left
          have : (tracePos origin dir (n + 1)).y
              = (tracePos origin dir n).y + (traceStep dir).y := rfl
          show |(rustRound (tracePos origin dir (n + 1)).y : ℚ) -
            (rustRound (tracePos origin dir n).y : ℚ)| ≤ 1
          rw [this]
          exact_mod_cast h1
        · exact Or.inr h1
      · rcases hz with h1 | h1
        · left
          have : (tracePos origin dir (n + 1)).z
              = (tracePos origin dir n).z + (traceStep dir).z := rfl
          show |(rustRound (tracePos origin dir (n + 1)).z : ℚ) -
            (rustRound (tracePos origin dir n).z : ℚ)| ≤ 1
          rw [this]
          exact_mod_cast h1
        · exact Or.inr h1

unseal Rat.add Rat.mul Rat.inv Rat.sub in
/-- Witness for C7 amended: the rejection branch at the zero direction and
the connectivity property at origin (0,0,0), direction (1,0,0), step 0. -/
theorem claim_C7_witness :
    trace ⟨0, 0, 0⟩ ⟨0, 0, 0⟩ = none ∧
    ((|(traceCell ⟨0, 0, 0⟩ ⟨1, 0, 0⟩ 1).x - (traceCell ⟨0, 0, 0⟩ ⟨1, 0, 0⟩ 0).x| ≤ 1 ∨
      (|(traceStep ⟨1, 0, 0⟩).x| = 1 ∧
        (tracePos ⟨0, 0, 0⟩ ⟨1, 0, 0⟩ 0).x = -((traceStep ⟨1, 0, 0⟩).x / 2))) ∧
     (|(traceCell ⟨0, 0, 0⟩ ⟨1, 0, 0⟩ 1).y - (traceCell ⟨0, 0, 0⟩ ⟨1, 0, 0⟩ 0).y| ≤ 1 ∨
      (|(traceStep ⟨1, 0, 0⟩).y| = 1 ∧
        (tracePos ⟨0, 0, 0⟩ ⟨1, 0, 0⟩ 0).y = -((traceStep ⟨1, 0, 0⟩).y / 2))) ∧
     (|(traceCell ⟨0, 0, 0⟩ ⟨1, 0, 0⟩ 1).z - (traceCell ⟨0, 0, 0⟩ ⟨1, 0, 0⟩ 0).z| ≤ 1 ∨
      (|(traceStep ⟨1, 0, 0⟩).z| = 1 ∧
        (tracePos ⟨0, 0, 0⟩ ⟨1, 0, 0⟩ 0).z = -((traceStep ⟨1, 0, 0⟩).z / 2)))) :=
  ⟨claim_C7_amended.1 ⟨0, 0, 0⟩ ⟨0, 0, 0⟩ (by decide),
   (claim_C7_amended.2 ⟨0, 0, 0⟩ ⟨1, 0, 0⟩ (by decide)).2 0⟩

unseal Rat.add Rat.mul Rat.inv Rat.sub in
/-- Counterexample to claim C10: already for the ObliqueNorth heading (which
applies no rotation, so no trigonometric value is involved) the lib.rs matrix
uses oblique unit -0.5 in its sheared z axis while the main.rs matrix uses
the f32 FRAC_1_SQRT_2, so the two produced matrices are different. -/
theorem claim_C10_counterexample :
    libFromCamera tIdeal .obliqueNorth ≠ mainFromCamera tIdeal .obliqueNorth := by
  decide

/-- Claim C10, amended: for every heading the two From(Camera)
implementations agree on every column except the z axis; the z axis carries
the sheared oblique unit, 0.5 in lib.rs and f32 FRAC_1_SQRT_2 in main.rs, so
for every heading (and any values of the quarter-turn trig constants) the
two matrices differ. -/
theorem claim_C10_amended (t : TrigConsts) (c : Camera) :
    (libFromCamera t c).xAxis = (mainFromCamera t c).xAxis ∧
    (libFromCamera t c).yAxis = (mainFromCamera t c).yAxis ∧
    (libFromCamera t c).wAxis = (mainFromCamera t c).wAxis ∧
    (libFromCamera t c).zAxis = ⟨-(1 / 2), 1 / 2, 1, 0⟩ ∧
    (mainFromCamera t c).zAxis = ⟨-f32FracInvSqrt2, f32FracInvSqrt2, 1, 0⟩ ∧
    libFromCamera t c ≠ mainFromCamera t c := by
  have hne : ¬ (-(1 / 2) : ℚ) = -f32FracInvSqrt2 := by
    norm_num [f32FracInvSqrt2]
  cases c <;>
    refine ⟨?_, ?_, ?_, ?_, ?_, fun h => hne ?_⟩ <;>
      simp_all [libFromCamera, mainFromCamera, Mat4.mul, mulVec4, shearOblique,
        rotZ, Mat4.mk.injEq, Vec4.mk.injEq]

/-- Componentwise description of integer vector subtraction. -/
@[simp] theorem IVec3_sub_x (a b : IVec3) : (a - b).x = a.x - b.x := rfl

/-- Componentwise description of integer vector subtraction. -/
@[simp] theorem IVec3_sub_y (a b : IVec3) : (a - b).y = a.y - b.y := rfl

/-- Componentwise description of integer vector subtraction. -/
@[simp] theorem IVec3_sub_z (a b : IVec3) : (a - b).z = a.z - b.z := rfl

/-- A fold of conditional function-map insertions, where the inserted value
depends only on the key: lookup afterwards finds the value exactly for keys
of the iterated list that pass the condition. -/
theorem foldl_insertIf {α β : Type} [DecidableEq α] (cond : α → Prop)
    [DecidablePred cond] (v : α → β) (l : List α) (m0 : α → Option β) (p : α) :
    (l.foldl
      (fun m q =>
        if cond q then (fun r => if r = q then some (v q) else m r) else m)
      m0) p
      = if p ∈ l ∧ cond p then some (v p) else m0 p := by
  induction l generalizing m0 with
  | nil => simp
  | cons a l ih =>
    rw [List.foldl_cons, ih]
    by_cases hpl : p ∈ l ∧ cond p
    · rw [if_pos hpl, if_pos ⟨List.mem_cons_of_mem a hpl.1, hpl.2⟩]
    · rw [if_neg hpl]
      by_cases hca : cond a
      · rw [if_pos hca]
        by_cases hpa : p = a
        · subst hpa
          rw [if_pos rfl, if_pos ⟨List.mem_cons_self p l, hca⟩]
        · rw [if_neg hpa, if_neg ?_]
          rintro ⟨hm, hc⟩
          rcases List.mem_cons.mp hm with h | h
          · exact hpa h
          · exact hpl ⟨h, hc⟩
      · rw [if_neg hca, if_neg ?_]
        rintro ⟨hm, hc⟩
        rcases List.mem_cons.mp hm with h | h
        · exact hca (h ▸ hc)
        · exact hpl ⟨h, hc⟩

/-- Characterization of the hits map: a position maps to its matches vector
exactly when it lies in the scanned cube and every view matched. -/
theorem hitsAt_char (views : List Prism) (p : IVec3) :
    hitsAt views p =
      if p ∈ cubePositions ∧ (matchesAt views (toVec3 p)).length = views.length
      then some (matchesAt views (toVec3 p)) else none :=
  foldl_insertIf (fun q => (matchesAt views (toVec3 q)).length = views.length)
    (fun q => matchesAt views (toVec3 q)) cubePositions (fun _ => none) p

/-- Membership in an inclusive integer range list. -/
theorem mem_intRange {lo hi x : ℤ} : x ∈ intRange lo hi ↔ lo ≤ x ∧ x ≤ hi := by
  unfold intRange
  constructor
  · intro hx
    rcases List.mem_map.mp hx with ⟨i, hiR, hEq⟩
    rw [List.mem_range] at hiR
    omega
  · rintro ⟨h1, h2⟩
    exact List.mem_map.mpr
      ⟨(x - lo).toNat, List.mem_range.mpr (by omega), by omega⟩

/-- Membership in the scanned cube is the componentwise bound -64..=64. -/
theorem mem_cubePositions {p : IVec3} :
    p ∈ cubePositions ↔
      ((-64 ≤ p.x ∧ p.x ≤ 64) ∧ (-64 ≤ p.y ∧ p.y ≤ 64) ∧
        (-64 ≤ p.z ∧ p.z ≤ 64)) := by
  unfold cubePositions
  simp only [List.mem_flatMap, List.mem_map, mem_intRange]
  constructor
  · rintro ⟨z, hz, y, hy, x, hx, rfl⟩
    exact ⟨hx, hy, hz⟩
  · rintro ⟨hx, hy, hz⟩
    exact ⟨p.z, hz, p.y, hy, p.x, hx, rfl⟩

/-- The hits characterization with cube membership spelled out as bounds
(the form whose conditions a kernel evaluation can decide directly). -/
theorem hitsAt_bounds (views : List Prism) (p : IVec3) :
    hitsAt views p =
      if ((-64 ≤ p.x ∧ p.x ≤ 64) ∧ (-64 ≤ p.y ∧ p.y ≤ 64) ∧
            (-64 ≤ p.z ∧ p.z ≤ 64)) ∧
          (matchesAt views (toVec3 p)).length = views.length
      then some (matchesAt views (toVec3 p)) else none := by
  rw [hitsAt_char]
  exact if_congr (and_congr_left' mem_cubePositions) rfl rfl

/-- The matches vector has full length exactly when every view's sample is
present at the position. -/
theorem matchesAt_length (views : List Prism) (pos : Vec3) :
    (matchesAt views pos).length = views.length ↔
      ∀ v ∈ views, (v.sample pos).isSome := by
  unfold matchesAt
  induction views with
  | nil => simp
  | cons a l ih =>
    rw [List.filterMap_cons]
    cases ha : a.sample pos with
    | none =>
      simp only [Option.map_none']
      constructor
      · intro h
        exfalso
        have hle := List.length_filterMap_le
          (fun view => (view.sample pos).map
            (fun color => (⟨color, view.normal⟩ : VoxelMatch))) l
        simp only [List.length_cons] at h
        omega
      · intro h
        exfalso
        have := h a (List.mem_cons_self a l)
        rw [ha] at this
        simp at this
    | some b =>
      simp only [Option.map_some', List.length_cons, List.forall_mem_cons,
        Nat.add_right_cancel_iff, ih, ha, Option.isSome_some, true_and]

/-- Claim C1: for a non-empty view list and a position inside the scanned
cube, build_model includes the position only if every Prism's sample is
present there; if any Prism's sample is absent the position is absent. -/
theorem claim_C1 (views : List Prism) (p : IVec3) (_hne : views ≠ [])
    (_hx : -64 ≤ p.x ∧ p.x ≤ 64) (_hy : -64 ≤ p.y ∧ p.y ≤ 64)
    (_hz : -64 ≤ p.z ∧ p.z ≤ 64) :
    ((buildModel views p).isSome →
      ∀ v ∈ views, (v.sample (toVec3 p)).isSome) ∧
    ((∃ v ∈ views, v.sample (toVec3 p) = none) → buildModel views p = none) := by
  constructor
  · intro h v hv
    unfold buildModel at h
    rw [hitsAt_char] at h
    by_cases hc : p ∈ cubePositions ∧
        (matchesAt views (toVec3 p)).length = views.length
    · exact (matchesAt_length views (toVec3 p)).mp hc.2 v hv
    · rw [if_neg hc] at h
      simp at h
  · rintro ⟨v, hv, hnone⟩
    unfold buildModel
    rw [hitsAt_char, if_neg ?_]
    · rfl
    · rintro ⟨-, hlen⟩
      have := (matchesAt_length views (toVec3 p)).mp hlen v hv
      rw [hnone] at this
      simp at this

unseal Rat.add Rat.mul Rat.inv Rat.sub in
/-- Witness for C1 at the single-view list [prismA] and the origin. -/
theorem claim_C1_witness :
    ((buildModel [prismA] ⟨0, 0, 0⟩).isSome →
      ∀ v ∈ [prismA], (v.sample (toVec3 ⟨0, 0, 0⟩)).isSome) ∧
    ((∃ v ∈ [prismA], v.sample (toVec3 ⟨0, 0, 0⟩) = none) →
      buildModel [prismA] ⟨0, 0, 0⟩ = none) :=
  claim_C1 [prismA] ⟨0, 0, 0⟩ (List.cons_ne_nil _ _) (by decide) (by decide)
    (by decide)

unseal Rat.add Rat.mul Rat.inv Rat.sub in
set_option maxRecDepth 8000 in
/-- Claim C2 is a code bug, exhibited at the failing input
views = [prismA, prismB], position (0, 0, 64): the accepted column of voxels
is (0, 0, z) for z in -64..=64, the estimated surface normal at the top
voxel (0, 0, 64) is (0, 0, 1), prism A's view normal has the strictly larger
dot product (1 versus -1/2), yet build_model outputs prism B's color,
because cmp::Reverse(dot.to_bits()) orders negative f32 dot products above
all positive ones (f32 bit patterns are not order-preserving on negatives),
contradicting the in-code comment that the best match is the candidate with
the highest dot product. -/
theorem claim_C2_code_bug :
    matchesAt [prismA, prismB] (toVec3 ⟨0, 0, 64⟩) =
      [⟨colA, ⟨0, 0, 1⟩⟩, ⟨colB, ⟨0, 0, -(1 / 2)⟩⟩] ∧
    normalize3 (vsumFaces (exposedFaces (hitsAt [prismA, prismB]) ⟨0, 0, 64⟩))
      = ⟨0, 0, 1⟩ ∧
    dot3 (Prism.normal prismB) ⟨0, 0, 1⟩ < dot3 (Prism.normal prismA) ⟨0, 0, 1⟩ ∧
    colA ≠ colB ∧
    buildModel [prismA, prismB] ⟨0, 0, 64⟩ = some colB := by
  refine ⟨by decide, ?_, by decide, by decide, ?_⟩
  · simp only [exposedFaces, hitsAt_bounds]
    decide
  · unfold buildModel chooseColor
    simp only [exposedFaces, hitsAt_bounds]
    decide

/-- A fold of insert-on-hit map updates, where the optional inserted value
depends only on the key: lookup afterwards finds the value exactly for keys
of the iterated list whose value is present. -/
theorem foldl_insertSome {α β : Type} [DecidableEq α] (f : α → Option β)
    (l : List α) (m0 : α → Option β) (p : α) :
    (l.foldl (insertHit f) m0) p
      = if p ∈ l ∧ (f p).isSome then f p else m0 p := by
  induction l generalizing m0 with
  | nil => simp
  | cons a l ih =>
    rw [List.foldl_cons, ih]
    by_cases hpl : p ∈ l ∧ (f p).isSome
    · rw [if_pos hpl, if_pos ⟨List.mem_cons_of_mem a hpl.1, hpl.2⟩]
    · rw [if_neg hpl]
      cases hfa : f a with
      | some b =>
        simp only [insertHit, hfa]
        by_cases hpa : p = a
        · subst hpa
          rw [if_pos rfl, if_pos ⟨List.mem_cons_self p l, by rw [hfa]; rfl⟩, hfa]
        · rw [if_neg hpa, if_neg ?_]
          rintro ⟨hm, hs⟩
          rcases List.mem_cons.mp hm with h | h
          · exact hpa h
          · exact hpl ⟨h, hs⟩
      | none =>
        simp only [insertHit, hfa]
        rw [if_neg ?_]
        rintro ⟨hm, hs⟩
        rcases List.mem_cons.mp hm with h | h
        · rw [h, hfa] at hs
          simp at hs
        · exact hpl ⟨h, hs⟩

/-- Membership in the pixel scan of build_view is the screen bound. -/
theorem mem_pixRange {sx sy : ℤ} {p : ℤ × ℤ} :
    p ∈ (intRange 0 (sy - 1)).flatMap
        (fun y => (intRange 0 (sx - 1)).map (fun x => (x, y))) ↔
      ((0 ≤ p.1 ∧ p.1 < sx) ∧ (0 ≤ p.2 ∧ p.2 < sy)) := by
  simp only [List.mem_flatMap, List.mem_map, mem_intRange]
  constructor
  · rintro ⟨y, hy, x, hx, rfl⟩
    exact ⟨⟨hx.1, by omega⟩, ⟨hy.1, by omega⟩⟩
  · rintro ⟨hx, hy⟩
    exact ⟨p.2, ⟨hy.1, by omega⟩, p.1, ⟨hx.1, by omega⟩, rfl⟩

/-- Claim C8, amended: provided the ray direction passes the epsilon check
(or the pixel envelope is empty, in which case no trace is attempted),
build_view succeeds and maps a screen pixel to a (3D position, value) pair
exactly when the pixel lies inside the screen-bounds envelope AND the ray
cast for that pixel yields, within the first 256 traced cells, a cell with a
present sample; the recorded pair is the first such cell with its value, and
every pixel outside the envelope is absent even if its ray would hit. -/
theorem claim_C8_amended {α : Type} (body : BodyM α) (camera : Mat4)
    (h : EPS < (rayDir camera).lengthSq ∨
      (screenBounds body.boundingBox camera).2.x ≤ 0 ∨
      (screenBounds body.boundingBox camera).2.y ≤ 0) :
    ∃ m, buildView body camera = some m ∧
      ∀ q : ℤ × ℤ,
        m q =
          if (0 ≤ q.1 ∧ q.1 < (screenBounds body.boundingBox camera).2.x) ∧
             (0 ≤ q.2 ∧ q.2 < (screenBounds body.boundingBox camera).2.y)
          then firstHit body (rayOrigin body camera q.1 q.2) (rayDir camera)
          else none := by
  unfold buildView
  by_cases hs : (screenBounds body.boundingBox camera).2.x ≤ 0 ∨
      (screenBounds body.boundingBox camera).2.y ≤ 0
  · rw [if_pos hs]
    refine ⟨_, rfl, fun q => ?_⟩
    rw [if_neg ?_]
    rintro ⟨hx, hy⟩
    rcases hs with hs | hs <;> omega
  · push_neg at hs
    have hd : EPS < (rayDir camera).lengthSq := by
      rcases h with h | h | h
      · exact h
      · exact absurd h (by omega)
      · exact absurd h (by omega)
    rw [if_neg (not_or.mpr ⟨not_le.mpr hs.1, not_le.mpr hs.2⟩),
      if_neg (not_le.mpr hd)]
    refine ⟨_, rfl, fun q => ?_⟩
    have key := foldl_insertSome
      (fun q : ℤ × ℤ => firstHit body (rayOrigin body camera q.1 q.2)
        (rayDir camera))
      ((intRange 0 ((screenBounds body.boundingBox camera).2.y - 1)).flatMap
        (fun y => (intRange 0 ((screenBounds body.boundingBox camera).2.x - 1)).map
          (fun x => (x, y))))
      (fun _ => none) q
    rw [key]
    by_cases hin : q ∈
        (intRange 0 ((screenBounds body.boundingBox camera).2.y - 1)).flatMap
          (fun y => (intRange 0 ((screenBounds body.boundingBox camera).2.x - 1)).map
            (fun x => (x, y)))
    · have hb := mem_pixRange.mp hin
      rw [if_pos hb]
      cases hf : firstHit body (rayOrigin body camera q.1 q.2) (rayDir camera) with
      | some r => rw [if_pos ⟨hin, rfl⟩]
      | none =>
        rw [if_neg ?_]
        rintro ⟨-, hsm⟩
        simp at hsm
    · rw [if_neg (fun hc => hin hc.1), if_neg (fun hb => hin (mem_pixRange.mpr hb))]

unseal Rat.add Rat.mul Rat.inv Rat.sub in
/-- Counterexample to claim C8 as stated: a Body whose sample is present
everywhere but whose bounding_box is the default zero box produces an empty
pixel envelope, so build_view returns the empty map and pixel (0,0) is
absent, although the ray cast for that pixel hits at its very first traced
cell (0,-1,0). -/
theorem claim_C8_counterexample :
    buildViewAt bodyAll idMat4 (0, 0) = some none ∧
    firstHit bodyAll (rayOrigin bodyAll idMat4 0 0) (rayDir idMat4) =
      some (⟨0, -1, 0⟩, 7) := by
  decide

/-- A color is in a palette exactly when its first-position search succeeds. -/
theorem findIdx?_isSome_iff {c : Pixel} {pal : List Pixel} :
    (List.findIdx? (fun d => decide (d = c)) pal).isSome = true ↔ c ∈ pal := by
  rw [List.findIdx?_isSome]
  simp

/-- Searching an extended palette finds a present color at its old position. -/
theorem findIdx?_append_of_mem {c : Pixel} {pal l2 : List Pixel}
    (h : c ∈ pal) :
    List.findIdx? (fun d => decide (d = c)) (pal ++ l2)
      = List.findIdx? (fun d => decide (d = c)) pal := by
  rw [List.findIdx?_append]
  rcases ho : List.findIdx? (fun d => decide (d = c)) pal with - | i
  · exact absurd (findIdx?_isSome_iff.mpr h) (by rw [ho]; simp)
  · rfl

/-- Appending a fresh color puts it at the end of the palette. -/
theorem findIdx?_append_self {c : Pixel} {pal : List Pixel} (h : c ∉ pal) :
    List.findIdx? (fun d => decide (d = c)) (pal ++ [c]) = some pal.length := by
  rw [List.findIdx?_append]
  have h0 : List.findIdx? (fun d => decide (d = c)) pal = none := by
    rw [List.findIdx?_eq_none_iff]
    intro x hx
    simp only [decide_eq_false_iff_not]
    rintro rfl
    exact h hx
  rw [h0]
  simp

/-- First-occurrence deduplication never moves a color already present. -/
theorem findIdx?_dedupInto {c : Pixel} (cs : List Pixel) (pal : List Pixel)
    (h : c ∈ pal) :
    List.findIdx? (fun d => decide (d = c)) (dedupInto pal cs)
      = List.findIdx? (fun d => decide (d = c)) pal := by
  induction cs generalizing pal with
  | nil => rfl
  | cons d cs ih =>
    show List.findIdx? _ (dedupInto (if d ∈ pal then pal else pal ++ [d]) cs) = _
    by_cases hd : d ∈ pal
    · rw [if_pos hd]
      exact ih pal h
    · rw [if_neg hd, ih (pal ++ [d]) (List.mem_append_left _ h)]
      exact findIdx?_append_of_mem h

/-- Skipping a seen color leaves the deduplicated palette unchanged. -/
theorem dedupInto_cons_mem {c : Pixel} {pal : List Pixel} (cs : List Pixel)
    (h : c ∈ pal) : dedupInto pal (c :: cs) = dedupInto pal cs := by
  show dedupInto (if c ∈ pal then pal else pal ++ [c]) cs = _
  rw [if_pos h]

/-- A fresh color is appended before deduplicating the rest. -/
theorem dedupInto_cons_not_mem {c : Pixel} {pal : List Pixel} (cs : List Pixel)
    (h : c ∉ pal) : dedupInto pal (c :: cs) = dedupInto (pal ++ [c]) cs := by
  show dedupInto (if c ∈ pal then pal else pal ++ [c]) cs = _
  rw [if_neg h]

/-- The to_vox entry loop computes the first-occurrence palette, and gives
every pushed voxel the index its color has in the final palette. -/
theorem toVoxFold_spec (minPos : IVec3) (l : List (IVec3 × Pixel))
    (pal0 : List Pixel) (voxs0 : List VoxVoxel) :
    (l.foldl (toVoxStep minPos) (pal0, voxs0)).1
        = dedupInto pal0 (l.map Prod.snd) ∧
    (l.foldl (toVoxStep minPos) (pal0, voxs0)).2
        = voxs0 ++ l.map (fun kv =>
            ⟨wrapI8v (kv.1 - minPos),
             wrapU8 (paletteIndexOf kv.2 (dedupInto pal0 (l.map Prod.snd)))⟩) := by
  induction l generalizing pal0 voxs0 with
  | nil => exact ⟨rfl, by simp⟩
  | cons e l ih =>
    rw [List.foldl_cons, List.map_cons]
    cases hfind : List.findIdx? (fun c => decide (c = e.2)) pal0 with
    | some i =>
      have hmem : e.2 ∈ pal0 := by
        refine findIdx?_isSome_iff.mp ?_
        rw [hfind]
        rfl
      have hstep : toVoxStep minPos (pal0, voxs0) e
          = (pal0, voxs0 ++ [⟨wrapI8v (e.1 - minPos), wrapU8 i⟩]) := by
        unfold toVoxStep
        rw [hfind]
      rw [hstep, dedupInto_cons_mem _ hmem]
      obtain ⟨ih1, ih2⟩ :=
        ih pal0 (voxs0 ++ [⟨wrapI8v (e.1 - minPos), wrapU8 i⟩])
      refine ⟨ih1, ?_⟩
      rw [ih2, List.append_assoc, List.singleton_append]
      have hidx : paletteIndexOf e.2 (dedupInto pal0 (l.map Prod.snd)) = i := by
        unfold paletteIndexOf
        rw [findIdx?_dedupInto _ _ hmem, hfind]
        rfl
      rw [List.map_cons, hidx]
    | none =>
      have hmem : e.2 ∉ pal0 := by
        intro hc
        have := findIdx?_isSome_iff.mpr hc
        rw [hfind] at this
        simp at this
      have hstep : toVoxStep minPos (pal0, voxs0) e
          = (pal0 ++ [e.2],
             voxs0 ++ [⟨wrapI8v (e.1 - minPos), wrapU8 pal0.length⟩]) := by
        unfold toVoxStep
        rw [hfind]
      rw [hstep, dedupInto_cons_not_mem _ hmem]
      obtain ⟨ih1, ih2⟩ :=
        ih (pal0 ++ [e.2])
          (voxs0 ++ [⟨wrapI8v (e.1 - minPos), wrapU8 pal0.length⟩])
      refine ⟨ih1, ?_⟩
      rw [ih2, List.append_assoc, List.singleton_append]
      have hidx : paletteIndexOf e.2 (dedupInto (pal0 ++ [e.2]) (l.map Prod.snd))
          = pal0.length := by
        unfold paletteIndexOf
        rw [findIdx?_dedupInto _ _ (List.mem_append_right _ (List.mem_singleton_self _)),
          findIdx?_append_self hmem]
        rfl
      rw [List.map_cons, hidx]

/-- A min fold over keys bounds the seed and every key from below. -/
theorem foldl_minI3_le (l : List (IVec3 × Pixel)) (a : IVec3) :
    leI3 (l.foldl (fun x kv => minI3 x kv.1) a) a ∧
    ∀ kv ∈ l, leI3 (l.foldl (fun x kv => minI3 x kv.1) a) kv.1 := by
  induction l generalizing a with
  | nil => exact ⟨⟨le_refl _, le_refl _, le_refl _⟩, by simp⟩
  | cons e l ih =>
    rw [List.foldl_cons]
    obtain ⟨h1, h2⟩ := ih (minI3 a e.1)
    refine ⟨⟨h1.1.trans (min_le_left _ _), h1.2.1.trans (min_le_left _ _),
      h1.2.2.trans (min_le_left _ _)⟩, ?_⟩
    intro kv hkv
    rcases List.mem_cons.mp hkv with h | h
    · subst h
      exact ⟨h1.1.trans (min_le_right _ _), h1.2.1.trans (min_le_right _ _),
        h1.2.2.trans (min_le_right _ _)⟩
    · exact h2 kv h

/-- A max fold over keys bounds the seed and every key from above. -/
theorem foldl_maxI3_ge (l : List (IVec3 × Pixel)) (a : IVec3) :
    leI3 a (l.foldl (fun x kv => maxI3 x kv.1) a) ∧
    ∀ kv ∈ l, leI3 kv.1 (l.foldl (fun x kv => maxI3 x kv.1) a) := by
  induction l generalizing a with
  | nil => exact ⟨⟨le_refl _, le_refl _, le_refl _⟩, by simp⟩
  | cons e l ih =>
    rw [List.foldl_cons]
    obtain ⟨h1, h2⟩ := ih (maxI3 a e.1)
    refine ⟨⟨(le_max_left _ _).trans h1.1, (le_max_left _ _).trans h1.2.1,
      (le_max_left _ _).trans h1.2.2⟩, ?_⟩
    intro kv hkv
    rcases List.mem_cons.mp hkv with h | h
    · subst h
      exact ⟨(le_max_right _ _).trans h1.1, (le_max_right _ _).trans h1.2.1,
        (le_max_right _ _).trans h1.2.2⟩
    · exact h2 kv h

/-- A componentwise min fold projects to a scalar min fold. -/
theorem foldl_minI3_proj (g : IVec3 → ℤ)
    (hg : ∀ a b, g (minI3 a b) = min (g a) (g b))
    (l : List (IVec3 × Pixel)) (a : IVec3) :
    g (l.foldl (fun x kv => minI3 x kv.1) a)
      = l.foldl (fun m kv => min m (g kv.1)) (g a) := by
  induction l generalizing a with
  | nil => rfl
  | cons e l ih =>
    rw [List.foldl_cons, List.foldl_cons, ih, hg]

/-- A componentwise max fold projects to a scalar max fold. -/
theorem foldl_maxI3_proj (g : IVec3 → ℤ)
    (hg : ∀ a b, g (maxI3 a b) = max (g a) (g b))
    (l : List (IVec3 × Pixel)) (a : IVec3) :
    g (l.foldl (fun x kv => maxI3 x kv.1) a)
      = l.foldl (fun m kv => max m (g kv.1)) (g a) := by
  induction l generalizing a with
  | nil => rfl
  | cons e l ih =>
    rw [List.foldl_cons, List.foldl_cons, ih, hg]

/-- A scalar min fold returns its seed or one of the folded values. -/
theorem foldl_min_attained (l : List (IVec3 × Pixel)) (g : IVec3 → ℤ)
    (a : ℤ) :
    l.foldl (fun m kv => min m (g kv.1)) a = a ∨
      ∃ kv ∈ l, l.foldl (fun m kv => min m (g kv.1)) a = g kv.1 := by
  induction l generalizing a with
  | nil => exact Or.inl rfl
  | cons e l ih =>
    rw [List.foldl_cons]
    rcases ih (min a (g e.1)) with h | ⟨e', he', hval⟩
    · rcases min_choice a (g e.1) with hm | hm
      · exact Or.inl (h.trans hm)
      · exact Or.inr ⟨e, List.mem_cons_self e l, h.trans hm⟩
    · exact Or.inr ⟨e', List.mem_cons_of_mem _ he', hval⟩

/-- A scalar max fold returns its seed or one of the folded values. -/
theorem foldl_max_attained (l : List (IVec3 × Pixel)) (g : IVec3 → ℤ)
    (a : ℤ) :
    l.foldl (fun m kv => max m (g kv.1)) a = a ∨
      ∃ kv ∈ l, l.foldl (fun m kv => max m (g kv.1)) a = g kv.1 := by
  induction l generalizing a with
  | nil => exact Or.inl rfl
  | cons e l ih =>
    rw [List.foldl_cons]
    rcases ih (max a (g e.1)) with h | ⟨e', he', hval⟩
    · rcases max_choice a (g e.1) with hm | hm
      · exact Or.inl (h.trans hm)
      · exact Or.inr ⟨e, List.mem_cons_self e l, h.trans hm⟩
    · exact Or.inr ⟨e', List.mem_cons_of_mem _ he', hval⟩

/-- The i8 cast is the identity on the i8 range. -/
theorem wrapI8_eq_self {n : ℤ} (h0 : 0 ≤ n) (h1 : n ≤ 127) : wrapI8 n = n := by
  unfold wrapI8
  omega

/-- Claim C9, amended: for every non-empty sparse color map (in any
iteration order), to_vox fails exactly when more than 256 distinct colors
occur; on success the palette is the first-occurrence deduplication of the
colors, every voxel's color index is its color's palette position, the model
size is the tight bounding extent (componentwise max minus min over the
keys, plus one, with both bounds attained on every axis), and every voxel
position is the key rebased by the componentwise minimum and reduced by the
wrapping i8 cast — hence non-negative provided each axis extent is at most
128 (beyond that the cast wraps and coordinates can come out negative). -/
theorem claim_C9_amended (model : List (IVec3 × Pixel)) (hne : model ≠ []) :
    (toVox model = none ↔ 256 < (dedupInto [] (model.map Prod.snd)).length) ∧
    (∀ v, toVox model = some v →
      v.palette = dedupInto [] (model.map Prod.snd) ∧
      v.models = [⟨keyMax model - keyMin model + (⟨1, 1, 1⟩ : IVec3),
        model.map (fun kv =>
          ⟨wrapI8v (kv.1 - keyMin model),
           wrapU8 (paletteIndexOf kv.2 (dedupInto [] (model.map Prod.snd)))⟩)⟩]) ∧
    (∀ kv ∈ model, leI3 (keyMin model) kv.1 ∧ leI3 kv.1 (keyMax model)) ∧
    ((∃ kv ∈ model, (keyMin model).x = kv.1.x) ∧
     (∃ kv ∈ model, (keyMin model).y = kv.1.y) ∧
     (∃ kv ∈ model, (keyMin model).z = kv.1.z) ∧
     (∃ kv ∈ model, (keyMax model).x = kv.1.x) ∧
     (∃ kv ∈ model, (keyMax model).y = kv.1.y) ∧
     (∃ kv ∈ model, (keyMax model).z = kv.1.z)) ∧
    (leI3 (keyMax model - keyMin model) ⟨127, 127, 127⟩ →
      ∀ v, toVox model = some v → ∀ vm ∈ v.models, ∀ w ∈ vm.voxels,
        leI3 ⟨0, 0, 0⟩ w.point) := by
  obtain ⟨e0, rest, rfl⟩ : ∃ e0 rest, model = e0 :: rest := by
    cases model with
    | nil => exact absurd rfl hne
    | cons a l => exact ⟨a, l, rfl⟩
  obtain ⟨hf1, hf2⟩ := toVoxFold_spec (keyMin (e0 :: rest)) (e0 :: rest) [] []
  have htv : toVox (e0 :: rest) =
      if 256 <
          ((e0 :: rest).foldl (toVoxStep (keyMin (e0 :: rest))) ([], [])).1.length
      then none
      else
        some
          ⟨[⟨keyMax (e0 :: rest) - keyMin (e0 :: rest) + (⟨1, 1, 1⟩ : IVec3),
             ((e0 :: rest).foldl (toVoxStep (keyMin (e0 :: rest))) ([], [])).2⟩],
           ((e0 :: rest).foldl (toVoxStep (keyMin (e0 :: rest))) ([], [])).1⟩ := rfl
  have hminb := foldl_minI3_le rest e0.1
  have hmaxb := foldl_maxI3_ge rest e0.1
  have hbounds : ∀ kv ∈ e0 :: rest,
      leI3 (keyMin (e0 :: rest)) kv.1 ∧ leI3 kv.1 (keyMax (e0 :: rest)) := by
    intro kv hkv
    rcases List.mem_cons.mp hkv with h | h
    · subst h
      exact ⟨hminb.1, hmaxb.1⟩
    · exact ⟨hminb.2 kv h, hmaxb.2 kv h⟩
  refine ⟨?_, ?_, hbounds, ?_, ?_⟩
  · rw [htv, hf1]
    rcases lt_or_ge 256 (dedupInto [] ((e0 :: rest).map Prod.snd)).length with hc | hc
    · rw [if_pos hc]
      exact iff_of_true rfl hc
    · rw [if_neg (not_lt.mpr hc)]
      exact iff_of_false (by simp) (not_lt.mpr hc)
  · intro v hv
    rw [htv] at hv
    split at hv
    · exact absurd hv (by simp)
    · obtain rfl := Option.some_inj.mp hv
      refine ⟨hf1, ?_⟩
      rw [hf2, List.nil_append]
  · refine ⟨?_, ?_, ?_, ?_, ?_, ?_⟩
    · rcases foldl_min_attained rest (fun w => w.x) e0.1.x with h | ⟨kv, hkv, hval⟩
      · exact ⟨e0, List.mem_cons_self _ _,
          (foldl_minI3_proj (fun w => w.x) (fun a b => rfl) rest e0.1).trans h⟩
      · exact ⟨kv, List.mem_cons_of_mem _ hkv,
          (foldl_minI3_proj (fun w => w.x) (fun a b => rfl) rest e0.1).trans hval⟩
    · rcases foldl_min_attained rest (fun w => w.y) e0.1.y with h | ⟨kv, hkv, hval⟩
      · exact ⟨e0, List.mem_cons_self _ _,
          (foldl_minI3_proj (fun w => w.y) (fun a b => rfl) rest e0.1).trans h⟩
      · exact ⟨kv, List.mem_cons_of_mem _ hkv,
          (foldl_minI3_proj (fun w => w.y) (fun a b => rfl) rest e0.1).trans hval⟩
    · rcases foldl_min_attained rest (fun w => w.z) e0.1.z with h | ⟨kv, hkv, hval⟩
      · exact ⟨e0, List.mem_cons_self _ _,
          (foldl_minI3_proj (fun w => w.z) (fun a b => rfl) rest e0.1).trans h⟩
      · exact ⟨kv, List.mem_cons_of_mem _ hkv,
          (foldl_minI3_proj (fun w => w.z) (fun a b => rfl) rest e0.1).trans hval⟩
    · rcases foldl_max_attained rest (fun w => w.x) e0.1.x with h | ⟨kv, hkv, hval⟩
      · exact ⟨e0, List.mem_cons_self _ _,
          (foldl_maxI3_proj (fun w => w.x) (fun a b => rfl) rest e0.1).trans h⟩
      · exact ⟨kv, List.mem_cons_of_mem _ hkv,
          (foldl_maxI3_proj (fun w => w.x) (fun a b => rfl) rest e0.1).trans hval⟩
    · rcases foldl_max_attained rest (fun w => w.y) e0.1.y with h | ⟨kv, hkv, hval⟩
      · exact ⟨e0, List.mem_cons_self _ _,
          (foldl_maxI3_proj (fun w => w.y) (fun a b => rfl) rest e0.1).trans h⟩
      · exact ⟨kv, List.mem_cons_of_mem _ hkv,
          (foldl_maxI3_proj (fun w => w.y) (fun a b => rfl) rest e0.1).trans hval⟩
    · rcases foldl_max_attained rest (fun w => w.z) e0.1.z with h | ⟨kv, hkv, hval⟩
      · exact ⟨e0, List.mem_cons_self _ _,
          (foldl_maxI3_proj (fun w => w.z) (fun a b => rfl) rest e0.1).trans h⟩
      · exact ⟨kv, List.mem_cons_of_mem _ hkv,
          (foldl_maxI3_proj (fun w => w.z) (fun a b => rfl) rest e0.1).trans hval⟩
  · intro hext v hv vm hvm w hw
    rw [htv] at hv
    split at hv
    · exact absurd hv (by simp)
    · obtain rfl := Option.some_inj.mp hv
      rw [List.mem_singleton] at hvm
      subst hvm
      rw [hf2, List.nil_append] at hw
      obtain ⟨kv, hkv, rfl⟩ := List.mem_map.mp hw
      obtain ⟨hlo, hhi⟩ := hbounds kv hkv
      have hbx : (keyMax (e0 :: rest)).x - (keyMin (e0 :: rest)).x ≤ 127 := by
        have h := hext.1
        simp only [IVec3_sub_x] at h
        exact h
      have hby : (keyMax (e0 :: rest)).y - (keyMin (e0 :: rest)).y ≤ 127 := by
        have h := hext.2.1
        simp only [IVec3_sub_y] at h
        exact h
      have hbz : (keyMax (e0 :: rest)).z - (keyMin (e0 :: rest)).z ≤ 127 := by
        have h := hext.2.2
        simp only [IVec3_sub_z] at h
        exact h
      have hx : wrapI8 (kv.1 - keyMin (e0 :: rest)).x = (kv.1 - keyMin (e0 :: rest)).x :=
        wrapI8_eq_self (by simp only [IVec3_sub_x]; omega)
          (by simp only [IVec3_sub_x]; have := hhi.1; omega)
      have hy : wrapI8 (kv.1 - keyMin (e0 :: rest)).y = (kv.1 - keyMin (e0 :: rest)).y :=
        wrapI8_eq_self (by simp only [IVec3_sub_y]; omega)
          (by simp only [IVec3_sub_y]; have := hhi.2.1; omega)
      have hz : wrapI8 (kv.1 - keyMin (e0 :: rest)).z = (kv.1 - keyMin (e0 :: rest)).z :=
        wrapI8_eq_self (by simp only [IVec3_sub_z]; omega)
          (by simp only [IVec3_sub_z]; have := hhi.2.2; omega)
      refine ⟨?_, ?_, ?_⟩
      · show (0 : ℤ) ≤ wrapI8 (kv.1 - keyMin (e0 :: rest)).x
        rw [hx]
        simp only [IVec3_sub_x]
        omega
      · show (0 : ℤ) ≤ wrapI8 (kv.1 - keyMin (e0 :: rest)).y
        rw [hy]
        simp only [IVec3_sub_y]
        omega
      · show (0 : ℤ) ≤ wrapI8 (kv.1 - keyMin (e0 :: rest)).z
        rw [hz]
        simp only [IVec3_sub_z]
        omega

/-- Counterexample to claim C9 as stated: on the two-voxel map with keys
(0,0,0) and (128,0,0) (x extent 129), to_vox succeeds and emits the second
voxel at point (-128, 0, 0): the `as i8` cast wraps the rebased coordinate
128, so not all emitted coordinates are non-negative. -/
theorem claim_C9_counterexample :
    toVox modelWide =
      some ⟨[⟨⟨129, 1, 1⟩, [⟨⟨0, 0, 0⟩, 0⟩, ⟨⟨-128, 0, 0⟩, 0⟩]⟩], [colA]⟩ ∧
    ¬ leI3 ⟨0, 0, 0⟩ (⟨-128, 0, 0⟩ : IVec3) := by
  constructor
  · decide
  · intro h
    exact absurd h.1 (by decide)

/-- Witness for C9 amended: the failure characterization applied at the
concrete one-voxel map. -/
theorem claim_C9_witness :
    toVox modelSmall = none ↔
      256 < (dedupInto [] (modelSmall.map Prod.snd)).length :=
  (claim_C9_amended modelSmall (List.cons_ne_nil _ _)).1

unseal Rat.add Rat.mul Rat.inv Rat.sub in
/-- Witness for C8 amended at the concrete body with empty envelope. -/
theorem claim_C8_witness :
    ∃ m, buildView bodyAll idMat4 = some m ∧
      ∀ q : ℤ × ℤ,
        m q =
          if (0 ≤ q.1 ∧ q.1 < (screenBounds bodyAll.boundingBox idMat4).2.x) ∧
             (0 ≤ q.2 ∧ q.2 < (screenBounds bodyAll.boundingBox idMat4).2.y)
          then firstHit bodyAll (rayOrigin bodyAll idMat4 q.1 q.2) (rayDir idMat4)
          else none :=
  claim_C8_amended bodyAll idMat4 (Or.inr (Or.inl (by decide)))

end Voxelize
